import Mathlib

/-!
# Verification of the limit order book core (`src/main.rs`)

Shallow embedding of the order-book core of the repository:

* `Side`, `Order`, `Trade` mirror the Rust structs (`u64` ids as `Nat`,
  `i64` prices/quantities as `Int`).
* Each `BTreeMap<i64, VecDeque<Order>>` ladder is modelled as an
  association list of `(price, queue)` entries kept *best price first*:
  the sell ladder in ascending key order (so `keys().next()`, the best
  ask, is the head) and the buy ladder in descending key order (so
  `keys().next_back()`, the best bid, is the head).  `VecDeque<Order>` is
  a `List Order` (`pop_front` = head, `push_front` = cons,
  `push_back` = append).
* `drainLevel` is the inner `while let Some(resting) = orders.pop_front()`
  loop of `OrderBook::place_order`; the Rust source contains two
  textually identical copies of it (Buy and Sell arms), so a single Lean
  function serves both.
* `matchBuyLoop` / `matchSellLoop` are the two outer
  `while remaining_qty > 0` loops.  In the branch where the drained level
  is left non-empty with `remaining ≠ 0` the Rust loop would spin forever;
  that state is unreachable (`drainLevel_exhausted_or_empty`), and the
  model returns there.
* `OrderBook.place_order`, `OrderBook.best_buy`, `OrderBook.best_sell`
  and `TradingEngine.place_order` assemble the pieces exactly as the
  source does; mutation is modelled by returning the updated state.
-/

inductive Side where
  | Buy : Side
  | Sell : Side
deriving DecidableEq, Repr

structure Order where
  id : Nat
  side : Side
  price : Int
  quantity : Int
  timestamp : Nat
deriving DecidableEq, Repr

structure Trade where
  price : Int
  quantity : Int
  maker_id : Nat
  taker_id : Nat
deriving DecidableEq, Repr

/-- One side of the book: `BTreeMap<i64, VecDeque<Order>>`, kept as an
association list with the *best* price first (ascending keys for the sell
ladder, descending keys for the buy ladder). -/
abbrev Ladder := List (Int × List Order)

namespace Ladder

/-- The keys of a ladder, best first. -/
def keys (l : Ladder) : List Int := l.map Prod.fst

/-- All order ids resting in a ladder. -/
def ids (l : Ladder) : List Nat := l.flatMap (fun e => e.2.map Order.id)

/-- `BTreeMap::get`: the queue stored at price `p`, if the level exists. -/
def get? (l : Ladder) (p : Int) : Option (List Order) :=
  (l.find? (fun e => e.1 == p)).map Prod.snd

/-- Total resting quantity of one level's queue. -/
def queueQty (q : List Order) : Int := (q.map Order.quantity).sum

/-- Total resting quantity of a whole ladder. -/
def totalQty (l : Ladder) : Int := (l.map (fun e => queueQty e.2)).sum

/-- `entry(price).or_insert_with(VecDeque::new).push_back(order)` for a
ladder kept in ascending key order (the sell ladder). -/
def insertAsc : Ladder → Int → Order → Ladder
  | [], p, o => [(p, [o])]
  | (k, q) :: rest, p, o =>
    if p = k then (k, q ++ [o]) :: rest
    else if p < k then (p, [o]) :: (k, q) :: rest
    else (k, q) :: insertAsc rest p o

/-- `entry(price).or_insert_with(VecDeque::new).push_back(order)` for a
ladder kept in descending key order (the buy ladder). -/
def insertDesc : Ladder → Int → Order → Ladder
  | [], p, o => [(p, [o])]
  | (k, q) :: rest, p, o =>
    if p = k then (k, q ++ [o]) :: rest
    else if k < p then (p, [o]) :: (k, q) :: rest
    else (k, q) :: insertDesc rest p o

/-- Keys ascending: the sell ladder's sortedness (best ask = head). -/
def sortedAsc (l : Ladder) : Prop := l.keys.Pairwise (· < ·)

/-- Keys descending: the buy ladder's sortedness (best bid = head). -/
def sortedDesc (l : Ladder) : Prop := l.keys.Pairwise (· > ·)

instance (l : Ladder) : Decidable (sortedAsc l) := by
  unfold sortedAsc; infer_instance

instance (l : Ladder) : Decidable (sortedDesc l) := by
  unfold sortedDesc; infer_instance

/-- Every order resting at a level carries that level's price as its own. -/
def pricesMatch (l : Ladder) : Prop := ∀ e ∈ l, ∀ o ∈ e.2, o.price = e.1

instance (l : Ladder) : Decidable (pricesMatch l) := by
  unfold pricesMatch; infer_instance

/-- Every resting order has positive quantity. -/
def qtyPos (l : Ladder) : Prop := ∀ e ∈ l, ∀ o ∈ e.2, 0 < o.quantity

instance (l : Ladder) : Decidable (qtyPos l) := by
  unfold qtyPos; infer_instance

/-- Within each level, resting orders are in strictly increasing arrival
(timestamp) order: FIFO by arrival. -/
def fifoByArrival (l : Ladder) : Prop :=
  ∀ e ∈ l, e.2.Pairwise (fun a b => a.timestamp < b.timestamp)

instance (l : Ladder) : Decidable (fifoByArrival l) := by
  unfold fifoByArrival; infer_instance

end Ladder

/-- The inner level-drain loop of `OrderBook::place_order`
(`while let Some(mut resting_order) = orders.pop_front() { ... }`,
identical in the Buy and the Sell arm).  Returns the remaining incoming
quantity, the level's queue as the loop leaves it, and the trades pushed
during the loop, in order. -/
def drainLevel (taker : Nat) : Int → List Order → Int × List Order × List Trade
  | remaining, [] => (remaining, [], [])
  | remaining, resting :: rest =>
    let trade_qty := min remaining resting.quantity
    let t : Trade :=
      { price := resting.price, quantity := trade_qty,
        maker_id := resting.id, taker_id := taker }
    let remaining' := remaining - trade_qty
    let resting' : Order := { resting with quantity := resting.quantity - trade_qty }
    if 0 < resting'.quantity then
      (remaining', resting' :: rest, [t])
    else if remaining' = 0 then
      (remaining', rest, [t])
    else
      let res := drainLevel taker remaining' rest
      (res.1, res.2.1, t :: res.2.2)

/-- The outer `while remaining_qty > 0` loop of the `Side::Buy` arm of
`OrderBook::place_order`, walking the sell ladder best (lowest) ask
first.  `keys().next()` is the head of the ascending ladder; removing an
emptied level is dropping the head.  The branch returning
`(res.1, (best, res.2.1) :: rest, res.2.2)` with `res.1 ≠ 0` is
unreachable (`drainLevel_exhausted_or_empty`); the Rust loop would not
terminate there. -/
def matchBuyLoop (price : Int) (taker : Nat) : Int → Ladder → Int × Ladder × List Trade
  | remaining, [] => (remaining, [], [])
  | remaining, (best, q) :: rest =>
    if remaining ≤ 0 then (remaining, (best, q) :: rest, [])
    else if price < best then (remaining, (best, q) :: rest, [])
    else
      let res := drainLevel taker remaining q
      if res.2.1.isEmpty then
        if res.1 = 0 then (res.1, rest, res.2.2)
        else
          let cont := matchBuyLoop price taker res.1 rest
          (cont.1, cont.2.1, res.2.2 ++ cont.2.2)
      else
        (res.1, (best, res.2.1) :: rest, res.2.2)

/-- The outer loop of the `Side::Sell` arm, walking the buy ladder best
(highest) bid first; `keys().next_back()` is the head of the descending
ladder.  Mirror image of `matchBuyLoop`. -/
def matchSellLoop (price : Int) (taker : Nat) : Int → Ladder → Int × Ladder × List Trade
  | remaining, [] => (remaining, [], [])
  | remaining, (best, q) :: rest =>
    if remaining ≤ 0 then (remaining, (best, q) :: rest, [])
    else if best < price then (remaining, (best, q) :: rest, [])
    else
      let res := drainLevel taker remaining q
      if res.2.1.isEmpty then
        if res.1 = 0 then (res.1, rest, res.2.2)
        else
          let cont := matchSellLoop price taker res.1 rest
          (cont.1, cont.2.1, res.2.2 ++ cont.2.2)
      else
        (res.1, (best, res.2.1) :: rest, res.2.2)

/-- `matchBuyLoop` with an explicit bound on the number of outer
iterations, `none` when the bound is exhausted.  Used to state that the
Rust `while` loop terminates: `matchBuyLoopFuel_sufficient` shows
`sells.length + 1` iterations always suffice, because every iteration
that does not leave the loop removes the best remaining level. -/
def matchBuyLoopFuel (price : Int) (taker : Nat) :
    Nat → Int → Ladder → Option (Int × Ladder × List Trade)
  | 0, _, _ => none
  | _ + 1, remaining, [] => some (remaining, [], [])
  | fuel + 1, remaining, (best, q) :: rest =>
    if remaining ≤ 0 then some (remaining, (best, q) :: rest, [])
    else if price < best then some (remaining, (best, q) :: rest, [])
    else
      let res := drainLevel taker remaining q
      if res.2.1.isEmpty then
        if res.1 = 0 then some (res.1, rest, res.2.2)
        else
          (matchBuyLoopFuel price taker fuel res.1 rest).map
            (fun cont => (cont.1, cont.2.1, res.2.2 ++ cont.2.2))
      else
        some (res.1, (best, res.2.1) :: rest, res.2.2)

/-- Fuelled version of `matchSellLoop`; see `matchBuyLoopFuel`. -/
def matchSellLoopFuel (price : Int) (taker : Nat) :
    Nat → Int → Ladder → Option (Int × Ladder × List Trade)
  | 0, _, _ => none
  | _ + 1, remaining, [] => some (remaining, [], [])
  | fuel + 1, remaining, (best, q) :: rest =>
    if remaining ≤ 0 then some (remaining, (best, q) :: rest, [])
    else if best < price then some (remaining, (best, q) :: rest, [])
    else
      let res := drainLevel taker remaining q
      if res.2.1.isEmpty then
        if res.1 = 0 then some (res.1, rest, res.2.2)
        else
          (matchSellLoopFuel price taker fuel res.1 rest).map
            (fun cont => (cont.1, cont.2.1, res.2.2 ++ cont.2.2))
      else
        some (res.1, (best, res.2.1) :: rest, res.2.2)

structure OrderBook where
  buy_levels : Ladder
  sell_levels : Ladder
  next_timestamp : Nat
  symbol : String
deriving DecidableEq

/-- `OrderBook::new`. -/
def OrderBook.new (symbol : String) : OrderBook :=
  { buy_levels := [], sell_levels := [], next_timestamp := 1, symbol := symbol }

/-- `OrderBook::place_order`: match against the opposite ladder, then rest
any remainder on the order's own ladder.  Returns the trades and the
updated book. -/
def OrderBook.place_order (b : OrderBook) (side : Side) (price quantity : Int)
    (id : Nat) : List Trade × OrderBook :=
  let timestamp := b.next_timestamp
  match side with
  | Side.Buy =>
    let res := matchBuyLoop price id quantity b.sell_levels
    let b' : OrderBook :=
      { b with sell_levels := res.2.1, next_timestamp := b.next_timestamp + 1 }
    if 0 < res.1 then
      let remaining_order : Order :=
        { id := id, side := side, price := price, quantity := res.1,
          timestamp := timestamp }
      (res.2.2, { b' with buy_levels :=
          Ladder.insertDesc b'.buy_levels price remaining_order })
    else
      (res.2.2, b')
  | Side.Sell =>
    let res := matchSellLoop price id quantity b.buy_levels
    let b' : OrderBook :=
      { b with buy_levels := res.2.1, next_timestamp := b.next_timestamp + 1 }
    if 0 < res.1 then
      let remaining_order : Order :=
        { id := id, side := side, price := price, quantity := res.1,
          timestamp := timestamp }
      (res.2.2, { b' with sell_levels :=
          Ladder.insertAsc b'.sell_levels price remaining_order })
    else
      (res.2.2, b')

/-- `OrderBook::best_buy`: highest bid level with its aggregate quantity
(`iter().next_back()` of the `BTreeMap` = head of the descending ladder). -/
def OrderBook.best_buy (b : OrderBook) : Option (Int × Int) :=
  b.buy_levels.head?.map (fun e => (e.1, Ladder.queueQty e.2))

/-- `OrderBook::best_sell`: lowest ask level with its aggregate quantity
(`iter().next()` of the `BTreeMap` = head of the ascending ladder). -/
def OrderBook.best_sell (b : OrderBook) : Option (Int × Int) :=
  b.sell_levels.head?.map (fun e => (e.1, Ladder.queueQty e.2))

/-- The ladder an incoming order of side `s` matches against. -/
def OrderBook.oppLadder (b : OrderBook) : Side → Ladder
  | Side.Buy => b.sell_levels
  | Side.Sell => b.buy_levels

/-- The ladder a remainder of an incoming order of side `s` rests on. -/
def OrderBook.ownLadder (b : OrderBook) : Side → Ladder
  | Side.Buy => b.buy_levels
  | Side.Sell => b.sell_levels

/-- The book is not crossed: best bid strictly below best ask, or one side
empty (computed from `best_buy` / `best_sell` exactly as the tests and the
display code read them). -/
def OrderBook.notCrossed (b : OrderBook) : Bool :=
  match b.best_buy, b.best_sell with
  | some bb, some sa => bb.1 < sa.1
  | _, _ => true

/-- A level is present in a ladder only with a non-empty queue, on both
sides. -/
def OrderBook.levelsNonempty (b : OrderBook) : Bool :=
  b.buy_levels.all (fun e => !e.2.isEmpty) && b.sell_levels.all (fun e => !e.2.isEmpty)

/-- `OrderBook::place_order` with the matching loop bounded by `fuel`
outer iterations; `none` when the bound is exhausted. -/
def OrderBook.place_order_fuel (b : OrderBook) (side : Side) (price quantity : Int)
    (id : Nat) (fuel : Nat) : Option (List Trade × OrderBook) :=
  let timestamp := b.next_timestamp
  match side with
  | Side.Buy =>
    (matchBuyLoopFuel price id fuel quantity b.sell_levels).map fun res =>
      let b' : OrderBook :=
        { b with sell_levels := res.2.1, next_timestamp := b.next_timestamp + 1 }
      if 0 < res.1 then
        let remaining_order : Order :=
          { id := id, side := side, price := price, quantity := res.1,
            timestamp := timestamp }
        (res.2.2, { b' with buy_levels :=
            Ladder.insertDesc b'.buy_levels price remaining_order })
      else
        (res.2.2, b')
  | Side.Sell =>
    (matchSellLoopFuel price id fuel quantity b.buy_levels).map fun res =>
      let b' : OrderBook :=
        { b with buy_levels := res.2.1, next_timestamp := b.next_timestamp + 1 }
      if 0 < res.1 then
        let remaining_order : Order :=
          { id := id, side := side, price := price, quantity := res.1,
            timestamp := timestamp }
        (res.2.2, { b' with sell_levels :=
            Ladder.insertAsc b'.sell_levels price remaining_order })
      else
        (res.2.2, b')

/-- The reachable-state invariant of the book: the buy ladder is kept in
descending and the sell ladder in ascending key order, and the book is
never crossed. -/
def OrderBook.invariant (b : OrderBook) : Prop :=
  Ladder.sortedDesc b.buy_levels ∧ Ladder.sortedAsc b.sell_levels ∧
    b.notCrossed = true

instance (b : OrderBook) : Decidable b.invariant := by
  unfold OrderBook.invariant; infer_instance

/-- One `place_order` request, as the caller submits it. -/
structure Cmd where
  side : Side
  price : Int
  quantity : Int
  id : Nat
deriving DecidableEq, Repr

/-- Apply a sequence of `place_order` calls to a book, in submission
order. -/
def execOrders (b : OrderBook) : List Cmd → OrderBook
  | [] => b
  | c :: cs => execOrders (b.place_order c.side c.price c.quantity c.id).2 cs

/-- Sum of the quantities of a list of trades. -/
def tradesQty (ts : List Trade) : Int := (ts.map Trade.quantity).sum

structure TradingEngine where
  book : OrderBook
  next_order_id : Nat
  trades_history : List Trade
deriving DecidableEq

/-- `TradingEngine::new`. -/
def TradingEngine.new : TradingEngine :=
  { book := OrderBook.new "Valhalla/USD", next_order_id := 1000,
    trades_history := [] }

/-- `TradingEngine::place_order`, after the fixed-point boundary
conversion: the Rust wrapper first scales its `f64` arguments into the
integer units the core operates on (a presentation-boundary concern, per
the spec) and then validates `quantity_int <= 0 || price_int <= 0`,
returning `Err` before touching the id counter or the book.  The model
takes the already-converted integers and returns the result together with
the (possibly unchanged) engine state. -/
def TradingEngine.place_order (e : TradingEngine) (side : Side)
    (price_int quantity_int : Int) : Except String (List Trade) × TradingEngine :=
  if quantity_int ≤ 0 ∨ price_int ≤ 0 then
    (Except.error "Price and quantity must be positive", e)
  else
    let order_id := e.next_order_id
    let res := e.book.place_order side price_int quantity_int order_id
    (Except.ok res.1,
     { book := res.2, next_order_id := e.next_order_id + 1,
       trades_history := e.trades_history ++ res.1 })

/-! ## Helper list lemmas -/

/-- If `b` occurs in the `k`-prefix of a duplicate-free list that contains
`a` strictly before `b`, then `a` and `b` occur, in that order, in that
prefix. -/
theorem pair_sublist_take {β : Type} {a b : β} (m1 m2 m3 : List β) (k : Nat)
    (hnd : (m1 ++ a :: m2 ++ b :: m3).Nodup)
    (hm : b ∈ (m1 ++ a :: m2 ++ b :: m3).take k) :
    [a, b].Sublist ((m1 ++ a :: m2 ++ b :: m3).take k) := by
  set A := m1 ++ a :: m2 with hA
  have hxs : m1 ++ a :: m2 ++ b :: m3 = A ++ b :: m3 := by simp [hA]
  rw [hxs] at hnd hm ⊢
  have hlen : A.length < k := by
    by_contra hle
    push_neg at hle
    rw [List.take_append_eq_append_take, Nat.sub_eq_zero_of_le hle,
      List.take_zero, List.append_nil] at hm
    have hbA : b ∈ A := (A.take_sublist k).subset hm
    have hdisj := List.disjoint_of_nodup_append hnd
    exact hdisj hbA (List.mem_cons_self b m3)
  rw [List.take_append_eq_append_take, List.take_of_length_le (le_of_lt hlen)]
  obtain ⟨m, hmk⟩ : ∃ m, k - A.length = m + 1 :=
    ⟨k - A.length - 1, by omega⟩
  rw [hmk, List.take_succ_cons]
  have ha : [a].Sublist A :=
    (((List.nil_sublist m2).cons₂ a).trans (List.sublist_append_right m1 _))
  have hb : [b].Sublist (b :: m3.take m) := (List.nil_sublist _).cons₂ b
  exact ha.append hb

/-- In a list that is `Pairwise R` for an asymmetric `R`, any two members
related by `R` occur in that order. -/
theorem pairwise_mem_split {β : Type} {R : β → β → Prop}
    (hasymm : ∀ x y, R x y → ¬ R y x) :
    ∀ {l : List β}, l.Pairwise R → ∀ a b, a ∈ l → b ∈ l → R a b →
      ∃ m1 m2 m3, l = m1 ++ a :: m2 ++ b :: m3 := by
  intro l hl
  induction hl with
  | nil => intro a b ha _ _; exact absurd ha (List.not_mem_nil a)
  | @cons x xs hx _ ih =>
    intro a b ha hb hab
    rcases List.mem_cons.mp ha with rfl | ha'
    · rcases List.mem_cons.mp hb with rfl | hb'
      · exact absurd hab (hasymm _ _ hab)
      · obtain ⟨s, t, rfl⟩ := List.append_of_mem hb'
        exact ⟨[], s, t, rfl⟩
    · rcases List.mem_cons.mp hb with rfl | hb'
      · exact absurd (hx a ha') (hasymm _ _ hab)
      · obtain ⟨m1, m2, m3, rfl⟩ := ih a b ha' hb' hab
        exact ⟨x :: m1, m2, m3, rfl⟩

/-! ## `drainLevel` lemmas -/

/-- The incoming order's remaining quantity never goes negative inside the
level-drain loop. -/
theorem drainLevel_nonneg (taker : Nat) :
    ∀ (q : List Order) (remaining : Int), 0 ≤ remaining →
      0 ≤ (drainLevel taker remaining q).1 := by
  intro q
  induction q with
  | nil => intro remaining h; exact h
  | cons resting rest ih =>
    intro remaining h
    have hmin := min_le_left remaining resting.quantity
    simp only [drainLevel]
    split_ifs with h1 h2
    · exact (by omega : (0:Int) ≤ remaining - min remaining resting.quantity)
    · exact (by omega : (0:Int) ≤ remaining - min remaining resting.quantity)
    · exact ih _ (by omega)

/-- The level-drain loop leaves either the incoming order exhausted or the
level's queue empty: the state in which the Rust outer loop would spin is
unreachable. -/
theorem drainLevel_exhausted_or_empty (taker : Nat) :
    ∀ (q : List Order) (remaining : Int), 0 < remaining →
      (drainLevel taker remaining q).1 = 0 ∨ (drainLevel taker remaining q).2.1 = [] := by
  intro q
  induction q with
  | nil => intro remaining _; right; rfl
  | cons resting rest ih =>
    intro remaining h
    have hminl := min_le_left remaining resting.quantity
    have hminr := min_le_right remaining resting.quantity
    have hchoice := min_choice remaining resting.quantity
    simp only [drainLevel]
    split_ifs with h1 h2
    · -- partial fill: the maker keeps quantity, so the taker was exhausted
      left
      have h1' : 0 < resting.quantity - min remaining resting.quantity := h1
      exact (by rcases hchoice with hc | hc <;> omega :
        remaining - min remaining resting.quantity = 0)
    · left; exact h2
    · exact ih _ (by omega)

/-- Quantity conservation inside one level: what the incoming order loses
is exactly what the trades report. -/
theorem drainLevel_qty_sum (taker : Nat) :
    ∀ (q : List Order) (remaining : Int),
      (drainLevel taker remaining q).1 + tradesQty (drainLevel taker remaining q).2.2
        = remaining := by
  intro q
  induction q with
  | nil => intro remaining; simp [drainLevel, tradesQty]
  | cons resting rest ih =>
    intro remaining
    simp only [drainLevel]
    split_ifs with h1 h2
    · simp only [tradesQty, List.map_cons, List.map_nil, List.sum_cons, List.sum_nil]
      omega
    · simp only [tradesQty, List.map_cons, List.map_nil, List.sum_cons, List.sum_nil]
      omega
    · have hih := ih (remaining - min remaining resting.quantity)
      simp only [tradesQty, List.map_cons, List.map_nil, List.sum_cons,
        List.sum_nil] at hih ⊢
      omega

/-- Quantity conservation for the level's resting side: the queue's total
shrinks by exactly the traded quantity. -/
theorem drainLevel_level_sum (taker : Nat) :
    ∀ (q : List Order) (remaining : Int),
      Ladder.queueQty q =
        Ladder.queueQty (drainLevel taker remaining q).2.1 +
          tradesQty (drainLevel taker remaining q).2.2 := by
  intro q
  induction q with
  | nil => intro remaining; simp [drainLevel, tradesQty, Ladder.queueQty]
  | cons resting rest ih =>
    intro remaining
    have hminr := min_le_right remaining resting.quantity
    simp only [drainLevel]
    split_ifs with h1 h2
    · have h1' : 0 < resting.quantity - min remaining resting.quantity := h1
      simp only [Ladder.queueQty, tradesQty, List.map_cons, List.map_nil,
        List.sum_cons, List.sum_nil]
      omega
    · have h1' : ¬ 0 < resting.quantity - min remaining resting.quantity := h1
      simp only [Ladder.queueQty, tradesQty, List.map_cons, List.map_nil,
        List.sum_cons, List.sum_nil]
      omega
    · have h1' : ¬ 0 < resting.quantity - min remaining resting.quantity := h1
      have hih := ih (remaining - min remaining resting.quantity)
      simp only [Ladder.queueQty, tradesQty, List.map_cons, List.map_nil,
        List.sum_cons, List.sum_nil] at hih ⊢
      omega

/-- The makers of the trades produced by draining one level are exactly
the ids of a prefix of the queue: matching consumes from the front. -/
theorem drainLevel_makers_prefix (taker : Nat) :
    ∀ (q : List Order) (remaining : Int),
      ∃ k, ((drainLevel taker remaining q).2.2).map Trade.maker_id
        = (q.take k).map Order.id := by
  intro q
  induction q with
  | nil => intro remaining; exact ⟨0, by simp [drainLevel]⟩
  | cons resting rest ih =>
    intro remaining
    simp only [drainLevel]
    split_ifs with h1 h2
    · exact ⟨1, by simp⟩
    · exact ⟨1, by simp⟩
    · obtain ⟨k, hk⟩ := ih (remaining - min remaining resting.quantity)
      exact ⟨k + 1, by simpa using hk⟩

/-- Every trade produced by draining one level records the resting
(maker) order's id and price and the incoming (taker) order's id. -/
theorem drainLevel_trade_src (taker : Nat) :
    ∀ (q : List Order) (remaining : Int) (t : Trade),
      t ∈ (drainLevel taker remaining q).2.2 →
      t.taker_id = taker ∧ ∃ o ∈ q, t.maker_id = o.id ∧ t.price = o.price := by
  intro q
  induction q with
  | nil => intro remaining t ht; simp [drainLevel] at ht
  | cons resting rest ih =>
    intro remaining t ht
    simp only [drainLevel] at ht
    split_ifs at ht with h1 h2
    · simp only [List.mem_singleton] at ht
      subst ht
      exact ⟨rfl, resting, List.mem_cons_self _ _, rfl, rfl⟩
    · simp only [List.mem_singleton] at ht
      subst ht
      exact ⟨rfl, resting, List.mem_cons_self _ _, rfl, rfl⟩
    · simp only [List.mem_cons] at ht
      rcases ht with rfl | ht'
      · exact ⟨rfl, resting, List.mem_cons_self _ _, rfl, rfl⟩
      · obtain ⟨hta, o, ho, hmk, hpr⟩ := ih _ t ht'
        exact ⟨hta, o, List.mem_cons_of_mem _ ho, hmk, hpr⟩

/-- The ids of the queue the drain loop leaves behind form a sublist of
the original queue's ids (a partial fill changes only a quantity). -/
theorem drainLevel_ids_sublist (taker : Nat) :
    ∀ (q : List Order) (remaining : Int),
      ((drainLevel taker remaining q).2.1.map Order.id).Sublist (q.map Order.id) := by
  intro q
  induction q with
  | nil => intro remaining; simp [drainLevel]
  | cons resting rest ih =>
    intro remaining
    simp only [drainLevel]
    split_ifs with h1 h2
    · simp
    · simp [List.sublist_cons_self]
    · exact (ih _).trans (by simp [List.sublist_cons_self])

/-- Makers of a drained level come from that level's queue. -/
theorem drainLevel_makers_sub (taker : Nat) (q : List Order) (remaining : Int)
    (t : Trade) (ht : t ∈ (drainLevel taker remaining q).2.2) :
    t.maker_id ∈ q.map Order.id := by
  obtain ⟨-, o, ho, hmk, -⟩ := drainLevel_trade_src taker q remaining t ht
  exact hmk ▸ List.mem_map_of_mem Order.id ho

/-- A partial fill of a maker inside one level: if a trade fills a resting
order for less than its full quantity, then the incoming order is
exhausted (`remaining` hit zero), that trade is the last one of the drain,
and the partially filled maker is back at the front of the queue with the
reduced quantity. -/
theorem drainLevel_partial (taker : Nat) :
    ∀ (q : List Order) (remaining : Int) (o : Order) (t : Trade),
      (q.map Order.id).Nodup → o ∈ q →
      t ∈ (drainLevel taker remaining q).2.2 → t.maker_id = o.id →
      t.quantity < o.quantity →
      (drainLevel taker remaining q).1 = 0 ∧
      (drainLevel taker remaining q).2.2.getLast? = some t ∧
      ∃ rest2, (drainLevel taker remaining q).2.1 =
        ({ o with quantity := o.quantity - t.quantity } : Order) :: rest2 := by
  intro q
  induction q with
  | nil => intro remaining o t _ _ ht; simp [drainLevel] at ht
  | cons resting rest ih =>
    intro remaining o t hnd ho ht hmk hqty
    have hnd' : resting.id ∉ rest.map Order.id ∧ (rest.map Order.id).Nodup := by
      simpa [List.nodup_cons] using hnd
    have hident : resting.id = o.id → o = resting := by
      intro hmk'
      rcases List.mem_cons.mp ho with rfl | ho'
      · rfl
      · exact absurd (hmk' ▸ List.mem_map_of_mem Order.id ho') hnd'.1
    have hminl := min_le_left remaining resting.quantity
    have hminr := min_le_right remaining resting.quantity
    have hchoice := min_choice remaining resting.quantity
    simp only [drainLevel] at ht ⊢
    split_ifs at ht ⊢ with h1 h2
    · -- partial-fill branch
      have h1' : 0 < resting.quantity - min remaining resting.quantity := h1
      simp only [List.mem_singleton] at ht
      subst ht
      dsimp only at hmk hqty
      have hoeq : o = resting := hident hmk
      subst hoeq
      refine ⟨?_, rfl, rest, ?_⟩
      · dsimp only
        rcases hchoice with hc | hc <;> omega
      · rfl
    · -- full-fill-and-stop branch: the maker was filled exactly, so a
      -- partial trade is impossible here
      have h1' : ¬ 0 < resting.quantity - min remaining resting.quantity := h1
      simp only [List.mem_singleton] at ht
      subst ht
      dsimp only at hmk hqty
      have hoeq : o = resting := hident hmk
      subst hoeq
      exact absurd hqty (by omega)
    · -- full fill, drain continues into the rest of the queue
      have h1' : ¬ 0 < resting.quantity - min remaining resting.quantity := h1
      simp only [List.mem_cons] at ht
      rcases ht with rfl | ht'
      · dsimp only at hmk hqty
        have hoeq : o = resting := hident hmk
        subst hoeq
        exact absurd hqty (by omega)
      · have ho' : o ∈ rest := by
          rcases List.mem_cons.mp ho with rfl | ho'
          · exact absurd (hmk ▸ drainLevel_makers_sub taker rest _ t ht') hnd'.1
          · exact ho'
        obtain ⟨ha, hb, rest2, hc⟩ :=
          ih (remaining - min remaining resting.quantity) o t hnd'.2 ho' ht' hmk hqty
        refine ⟨ha, ?_, rest2, hc⟩
        have hne : (drainLevel taker (remaining - min remaining resting.quantity)
            rest).2.2 ≠ [] := List.ne_nil_of_mem ht'
        calc (⟨resting.price, min remaining resting.quantity, resting.id, taker⟩ ::
              (drainLevel taker (remaining - min remaining resting.quantity)
                rest).2.2).getLast?
            = (drainLevel taker (remaining - min remaining resting.quantity)
                rest).2.2.getLast? := List.getLast?_append_of_ne_nil [_] hne
          _ = some t := hb

/-- Within one level, a duplicate-free queue is consumed in order: if the
later order `o2` was traded, the earlier order `o1` was traded first. -/
theorem drainLevel_fifo (taker : Nat) (remaining : Int) (o1 o2 : Order)
    (m1 m2 m3 : List Order)
    (hnd : ((m1 ++ o1 :: m2 ++ o2 :: m3).map Order.id).Nodup)
    (hm : o2.id ∈ ((drainLevel taker remaining (m1 ++ o1 :: m2 ++ o2 :: m3)).2.2).map
      Trade.maker_id) :
    [o1.id, o2.id].Sublist
      (((drainLevel taker remaining (m1 ++ o1 :: m2 ++ o2 :: m3)).2.2).map
        Trade.maker_id) := by
  obtain ⟨k, hk⟩ := drainLevel_makers_prefix taker (m1 ++ o1 :: m2 ++ o2 :: m3) remaining
  rw [hk] at hm ⊢
  rw [List.map_take] at hm ⊢
  have hmap : (m1 ++ o1 :: m2 ++ o2 :: m3).map Order.id
      = m1.map Order.id ++ o1.id :: m2.map Order.id ++ o2.id :: m3.map Order.id := by
    simp
  rw [hmap] at hm hnd ⊢
  exact pair_sublist_take _ _ _ k hnd hm

/-! ## Ladder unfolding lemmas -/

theorem Ladder.ids_cons (e : Int × List Order) (rest : Ladder) :
    Ladder.ids (e :: rest) = e.2.map Order.id ++ Ladder.ids rest := by
  simp [Ladder.ids]

theorem Ladder.keys_cons (e : Int × List Order) (rest : Ladder) :
    Ladder.keys (e :: rest) = e.1 :: Ladder.keys rest := rfl

theorem Ladder.totalQty_cons (e : Int × List Order) (rest : Ladder) :
    Ladder.totalQty (e :: rest) = Ladder.queueQty e.2 + Ladder.totalQty rest := by
  simp [Ladder.totalQty]

theorem tradesQty_append (ts1 ts2 : List Trade) :
    tradesQty (ts1 ++ ts2) = tradesQty ts1 + tradesQty ts2 := by
  simp [tradesQty]

/-! ## `matchBuyLoop` lemmas -/

/-- With no remaining quantity the matching loop does nothing. -/
theorem matchBuyLoop_nonpos (price : Int) (taker : Nat) (remaining : Int)
    (s : Ladder) (h : remaining ≤ 0) :
    matchBuyLoop price taker remaining s = (remaining, s, []) := by
  cases s with
  | nil => rfl
  | cons e rest =>
    obtain ⟨best, q⟩ := e
    simp [matchBuyLoop, h]

/-- The incoming quantity never goes negative across the matching loop. -/
theorem matchBuyLoop_nonneg (price : Int) (taker : Nat) :
    ∀ (s : Ladder) (remaining : Int), 0 ≤ remaining →
      0 ≤ (matchBuyLoop price taker remaining s).1 := by
  intro s
  induction s with
  | nil => intro r h; exact h
  | cons e rest ih =>
    obtain ⟨best, q⟩ := e
    intro r h
    simp only [matchBuyLoop]
    split_ifs with h1 h2 h3 h4
    · exact h
    · exact h
    · exact le_of_eq h4.symm
    · exact ih _ (drainLevel_nonneg taker q r h)
    · exact drainLevel_nonneg taker q r h

/-- The keys of the opposite ladder after matching are a suffix of its
keys before: matching only removes whole levels, best first. -/
theorem matchBuyLoop_keys_suffix (price : Int) (taker : Nat) :
    ∀ (s : Ladder) (remaining : Int),
      (matchBuyLoop price taker remaining s).2.1.keys <:+ s.keys := by
  intro s
  induction s with
  | nil => intro r; exact List.suffix_refl _
  | cons e rest ih =>
    obtain ⟨best, q⟩ := e
    intro r
    simp only [matchBuyLoop]
    split_ifs with h1 h2 h3 h4
    · exact List.suffix_refl _
    · exact List.suffix_refl _
    · exact List.suffix_cons best (Ladder.keys rest)
    · exact (ih _).trans (List.suffix_cons best (Ladder.keys rest))
    · exact List.suffix_refl _

/-- How the matching loop can stop with quantity left: either the taker is
exhausted, or the opposite ladder is empty, or its best level is no longer
marketable. -/
theorem matchBuyLoop_exit (price : Int) (taker : Nat) :
    ∀ (s : Ladder) (remaining : Int), 0 < remaining →
      (matchBuyLoop price taker remaining s).1 = 0 ∨
      (matchBuyLoop price taker remaining s).2.1 = [] ∨
      ∃ best q rest, (matchBuyLoop price taker remaining s).2.1 = (best, q) :: rest ∧
        price < best := by
  intro s
  induction s with
  | nil => intro r _; right; left; rfl
  | cons e rest ih =>
    obtain ⟨best, q⟩ := e
    intro r hr
    simp only [matchBuyLoop]
    split_ifs with h1 h2 h3 h4
    · exact absurd hr (by omega)
    · exact Or.inr (Or.inr ⟨best, q, rest, rfl, h2⟩)
    · exact Or.inl h4
    · have h5 : 0 < (drainLevel taker r q).1 :=
        lt_of_le_of_ne (drainLevel_nonneg taker q r (le_of_lt hr)) (Ne.symm h4)
      exact ih _ h5
    · rcases drainLevel_exhausted_or_empty taker q r hr with h5 | h5
      · exact Or.inl h5
      · exact absurd (List.isEmpty_iff.mpr h5) h3

/-- Quantity conservation across the matching loop: what the incoming
order loses is exactly what the trades report. -/
theorem matchBuyLoop_qty_sum (price : Int) (taker : Nat) :
    ∀ (s : Ladder) (remaining : Int),
      (matchBuyLoop price taker remaining s).1 +
        tradesQty (matchBuyLoop price taker remaining s).2.2 = remaining := by
  intro s
  induction s with
  | nil => intro r; simp [matchBuyLoop, tradesQty]
  | cons e rest ih =>
    obtain ⟨best, q⟩ := e
    intro r
    simp only [matchBuyLoop]
    split_ifs with h1 h2 h3 h4
    · simp [tradesQty]
    · simp [tradesQty]
    · exact drainLevel_qty_sum taker q r
    · have hd := drainLevel_qty_sum taker q r
      have hi := ih (drainLevel taker r q).1
      dsimp only
      rw [tradesQty_append]
      omega
    · exact drainLevel_qty_sum taker q r

/-- Quantity conservation for the resting side: the opposite ladder's
total quantity shrinks by exactly the traded quantity. -/
theorem matchBuyLoop_total_sum (price : Int) (taker : Nat) :
    ∀ (s : Ladder) (remaining : Int),
      Ladder.totalQty s = Ladder.totalQty (matchBuyLoop price taker remaining s).2.1 +
        tradesQty (matchBuyLoop price taker remaining s).2.2 := by
  intro s
  induction s with
  | nil => intro r; simp [matchBuyLoop, tradesQty, Ladder.totalQty]
  | cons e rest ih =>
    obtain ⟨best, q⟩ := e
    intro r
    have hq := drainLevel_level_sum taker q r
    have hqnil : Ladder.queueQty ([] : List Order) = 0 := rfl
    rw [Ladder.totalQty_cons]
    simp only [matchBuyLoop]
    split_ifs with h1 h2 h3 h4
    · rw [Ladder.totalQty_cons]
      simp only [tradesQty, List.map_nil, List.sum_nil]
      omega
    · rw [Ladder.totalQty_cons]
      simp only [tradesQty, List.map_nil, List.sum_nil]
      omega
    · have h3' : (drainLevel taker r q).2.1 = [] := List.isEmpty_iff.mp h3
      rw [h3', hqnil] at hq
      dsimp only
      omega
    · have h3' : (drainLevel taker r q).2.1 = [] := List.isEmpty_iff.mp h3
      rw [h3', hqnil] at hq
      have hi := ih (drainLevel taker r q).1
      dsimp only
      rw [tradesQty_append]
      omega
    · dsimp only
      rw [Ladder.totalQty_cons]
      dsimp only
      omega

/-- Every trade of the matching loop records the id and price of a resting
order of the opposite ladder as maker, and the incoming id as taker. -/
theorem matchBuyLoop_trade_src (price : Int) (taker : Nat) :
    ∀ (s : Ladder) (remaining : Int) (t : Trade),
      t ∈ (matchBuyLoop price taker remaining s).2.2 →
      t.taker_id = taker ∧ ∃ e ∈ s, ∃ o ∈ e.2, t.maker_id = o.id ∧ t.price = o.price := by
  intro s
  induction s with
  | nil => intro r t ht; simp [matchBuyLoop] at ht
  | cons e rest ih =>
    obtain ⟨best, q⟩ := e
    intro r t ht
    simp only [matchBuyLoop] at ht
    split_ifs at ht with h1 h2 h3 h4
    · simp at ht
    · simp at ht
    · obtain ⟨hta, o, ho, hmk, hpr⟩ := drainLevel_trade_src taker q r t ht
      exact ⟨hta, (best, q), List.mem_cons_self _ _, o, ho, hmk, hpr⟩
    · rcases List.mem_append.mp ht with ht' | ht'
      · obtain ⟨hta, o, ho, hmk, hpr⟩ := drainLevel_trade_src taker q r t ht'
        exact ⟨hta, (best, q), List.mem_cons_self _ _, o, ho, hmk, hpr⟩
      · obtain ⟨hta, e, he, o, ho, hmk, hpr⟩ := ih _ t ht'
        exact ⟨hta, e, List.mem_cons_of_mem _ he, o, ho, hmk, hpr⟩
    · obtain ⟨hta, o, ho, hmk, hpr⟩ := drainLevel_trade_src taker q r t ht
      exact ⟨hta, (best, q), List.mem_cons_self _ _, o, ho, hmk, hpr⟩

/-- Makers of the matching loop come from the opposite ladder. -/
theorem matchBuyLoop_makers_mem (price : Int) (taker : Nat) (s : Ladder)
    (remaining : Int) (t : Trade)
    (ht : t ∈ (matchBuyLoop price taker remaining s).2.2) :
    t.maker_id ∈ Ladder.ids s := by
  obtain ⟨-, e, he, o, ho, hmk, -⟩ := matchBuyLoop_trade_src price taker s remaining t ht
  exact List.mem_flatMap.mpr ⟨e, he, hmk ▸ List.mem_map_of_mem Order.id ho⟩

/-- An incoming buy never pays more than its limit: every trade of the
loop executes at a level price, and only marketable levels are drained. -/
theorem matchBuyLoop_price_le (price : Int) (taker : Nat) :
    ∀ (s : Ladder) (remaining : Int), Ladder.pricesMatch s →
      ∀ t ∈ (matchBuyLoop price taker remaining s).2.2, t.price ≤ price := by
  intro s
  induction s with
  | nil => intro r _ t ht; simp [matchBuyLoop] at ht
  | cons e rest ih =>
    obtain ⟨best, q⟩ := e
    intro r hpm t ht
    have hpm_head : ∀ o ∈ q, o.price = best := fun o ho =>
      hpm (best, q) (List.mem_cons_self _ _) o ho
    have hpm_rest : Ladder.pricesMatch rest := fun e he o ho =>
      hpm e (List.mem_cons_of_mem _ he) o ho
    simp only [matchBuyLoop] at ht
    split_ifs at ht with h1 h2 h3 h4
    · simp at ht
    · simp at ht
    · obtain ⟨-, o, ho, -, hpr⟩ := drainLevel_trade_src taker q r t ht
      rw [hpr, hpm_head o ho]
      omega
    · rcases List.mem_append.mp ht with ht' | ht'
      · obtain ⟨-, o, ho, -, hpr⟩ := drainLevel_trade_src taker q r t ht'
        rw [hpr, hpm_head o ho]
        omega
      · exact ih _ hpm_rest t ht'
    · obtain ⟨-, o, ho, -, hpr⟩ := drainLevel_trade_src taker q r t ht
      rw [hpr, hpm_head o ho]
      omega

/-- Time priority across the matching loop: with duplicate-free order ids,
whenever the trades include the later order `o2` of some level as maker,
they include the earlier order `o1` of the same level as maker first. -/
theorem matchBuyLoop_fifo (price : Int) (taker : Nat) (o1 o2 : Order)
    (m1 m2 m3 : List Order) :
    ∀ (s : Ladder) (remaining : Int) (p : Int),
      (Ladder.ids s).Nodup → (p, m1 ++ o1 :: m2 ++ o2 :: m3) ∈ s →
      o2.id ∈ ((matchBuyLoop price taker remaining s).2.2).map Trade.maker_id →
      [o1.id, o2.id].Sublist
        (((matchBuyLoop price taker remaining s).2.2).map Trade.maker_id) := by
  intro s
  induction s with
  | nil => intro r p _ hpq; exact absurd hpq (List.not_mem_nil _)
  | cons e rest ih =>
    obtain ⟨best, qb⟩ := e
    intro r p hnd hpq hm
    rw [Ladder.ids_cons] at hnd
    obtain ⟨hnd1, hnd2, hdisj⟩ := List.nodup_append.mp hnd
    have ho2Q : o2.id ∈ (m1 ++ o1 :: m2 ++ o2 :: m3).map Order.id := by simp
    simp only [matchBuyLoop] at hm ⊢
    split_ifs at hm ⊢ with h1 h2 h3 h4
    · simp at hm
    · simp at hm
    · rcases List.mem_cons.mp hpq with heq | hpq'
      · have hq : m1 ++ o1 :: m2 ++ o2 :: m3 = qb := congrArg Prod.snd heq
        subst hq
        exact drainLevel_fifo taker r o1 o2 m1 m2 m3 hnd1 hm
      · exfalso
        obtain ⟨t, ht, hmk⟩ := List.mem_map.mp hm
        have hin : t.maker_id ∈ qb.map Order.id := drainLevel_makers_sub taker qb r t ht
        have hin' : o2.id ∈ Ladder.ids rest := List.mem_flatMap.mpr ⟨_, hpq', ho2Q⟩
        exact hdisj (hmk ▸ hin) hin'
    · rw [List.map_append] at hm ⊢
      rcases List.mem_cons.mp hpq with heq | hpq'
      · have hq : m1 ++ o1 :: m2 ++ o2 :: m3 = qb := congrArg Prod.snd heq
        subst hq
        rcases List.mem_append.mp hm with hm' | hm'
        · exact (drainLevel_fifo taker r o1 o2 m1 m2 m3 hnd1 hm').trans
            (List.sublist_append_left _ _)
        · exfalso
          obtain ⟨t, ht, hmk⟩ := List.mem_map.mp hm'
          have hin : t.maker_id ∈ Ladder.ids rest :=
            matchBuyLoop_makers_mem price taker rest _ t ht
          exact hdisj ho2Q (hmk ▸ hin)
      · rcases List.mem_append.mp hm with hm' | hm'
        · exfalso
          obtain ⟨t, ht, hmk⟩ := List.mem_map.mp hm'
          have hin : t.maker_id ∈ qb.map Order.id := drainLevel_makers_sub taker qb r t ht
          have hin' : o2.id ∈ Ladder.ids rest := List.mem_flatMap.mpr ⟨_, hpq', ho2Q⟩
          exact hdisj (hmk ▸ hin) hin'
        · exact (ih _ p hnd2 hpq' hm').trans (List.sublist_append_right _ _)
    · rcases List.mem_cons.mp hpq with heq | hpq'
      · have hq : m1 ++ o1 :: m2 ++ o2 :: m3 = qb := congrArg Prod.snd heq
        subst hq
        exact drainLevel_fifo taker r o1 o2 m1 m2 m3 hnd1 hm
      · exfalso
        obtain ⟨t, ht, hmk⟩ := List.mem_map.mp hm
        have hin : t.maker_id ∈ qb.map Order.id := drainLevel_makers_sub taker qb r t ht
        have hin' : o2.id ∈ Ladder.ids rest := List.mem_flatMap.mpr ⟨_, hpq', ho2Q⟩
        exact hdisj (hmk ▸ hin) hin'

/-- A partial fill of a maker across the matching loop: the taker is
exhausted, the partial-fill trade is the last one, and the maker's
remainder is back at the front of its level. -/
theorem matchBuyLoop_partial (price : Int) (taker : Nat) (o : Order) (t : Trade) :
    ∀ (s : Ladder) (remaining : Int) (p : Int) (q : List Order),
      (Ladder.ids s).Nodup → (p, q) ∈ s → o ∈ q →
      t ∈ (matchBuyLoop price taker remaining s).2.2 → t.maker_id = o.id →
      t.quantity < o.quantity →
      (matchBuyLoop price taker remaining s).1 = 0 ∧
      (matchBuyLoop price taker remaining s).2.2.getLast? = some t ∧
      ∃ rest2, Ladder.get? (matchBuyLoop price taker remaining s).2.1 p =
        some (({ o with quantity := o.quantity - t.quantity } : Order) :: rest2) := by
  intro s
  induction s with
  | nil => intro r p q _ hpq; exact absurd hpq (List.not_mem_nil _)
  | cons e rest ih =>
    obtain ⟨best, qb⟩ := e
    intro r p q hnd hpq ho ht hmk hqty
    rw [Ladder.ids_cons] at hnd
    obtain ⟨hnd1, hnd2, hdisj⟩ := List.nodup_append.mp hnd
    have hoQ : o.id ∈ q.map Order.id := List.mem_map_of_mem Order.id ho
    simp only [matchBuyLoop] at ht ⊢
    split_ifs at ht ⊢ with h1 h2 h3 h4
    · simp at ht
    · simp at ht
    · -- level emptied: a partial fill cannot have happened in it
      exfalso
      rcases List.mem_cons.mp hpq with heq | hpq'
      · have hq : q = qb := congrArg Prod.snd heq
        subst hq
        obtain ⟨-, -, rest2, hc⟩ := drainLevel_partial taker q r o t hnd1 ho ht hmk hqty
        rw [List.isEmpty_iff.mp h3] at hc
        exact List.noConfusion hc
      · have hin : t.maker_id ∈ qb.map Order.id := drainLevel_makers_sub taker qb r t ht
        have hin' : o.id ∈ Ladder.ids rest := List.mem_flatMap.mpr ⟨_, hpq', hoQ⟩
        exact hdisj (hmk ▸ hin) hin'
    · rcases List.mem_cons.mp hpq with heq | hpq'
      · exfalso
        have hq : q = qb := congrArg Prod.snd heq
        subst hq
        rcases List.mem_append.mp ht with ht' | ht'
        · obtain ⟨-, -, rest2, hc⟩ := drainLevel_partial taker q r o t hnd1 ho ht' hmk hqty
          rw [List.isEmpty_iff.mp h3] at hc
          exact List.noConfusion hc
        · have hin : t.maker_id ∈ Ladder.ids rest :=
            matchBuyLoop_makers_mem price taker rest _ t ht'
          exact hdisj hoQ (hmk ▸ hin)
      · have ht' : t ∈ (matchBuyLoop price taker (drainLevel taker r qb).1 rest).2.2 := by
          rcases List.mem_append.mp ht with ht' | ht'
          · exfalso
            have hin : t.maker_id ∈ qb.map Order.id := drainLevel_makers_sub taker qb r t ht'
            have hin' : o.id ∈ Ladder.ids rest := List.mem_flatMap.mpr ⟨_, hpq', hoQ⟩
            exact hdisj (hmk ▸ hin) hin'
          · exact ht'
        obtain ⟨ha, hb, rest2, hc⟩ := ih _ p q hnd2 hpq' ho ht' hmk hqty
        refine ⟨ha, ?_, rest2, hc⟩
        dsimp only
        rw [List.getLast?_append_of_ne_nil _ (List.ne_nil_of_mem ht')]
        exact hb
    · -- level kept: the partial fill is at its front
      rcases List.mem_cons.mp hpq with heq | hpq'
      · have hp : p = best := congrArg Prod.fst heq
        have hq : q = qb := congrArg Prod.snd heq
        subst hq
        subst hp
        obtain ⟨ha, hb, rest2, hc⟩ := drainLevel_partial taker q r o t hnd1 ho ht hmk hqty
        refine ⟨ha, hb, rest2, ?_⟩
        rw [hc] at h3 ⊢
        simp [Ladder.get?]
      · exfalso
        have hin : t.maker_id ∈ qb.map Order.id := drainLevel_makers_sub taker qb r t ht
        have hin' : o.id ∈ Ladder.ids rest := List.mem_flatMap.mpr ⟨_, hpq', hoQ⟩
        exact hdisj (hmk ▸ hin) hin'

/-! ## `matchSellLoop` lemmas (mirror images of the `matchBuyLoop` ones) -/

/-- With no remaining quantity the matching loop does nothing. -/
theorem matchSellLoop_nonpos (price : Int) (taker : Nat) (remaining : Int)
    (s : Ladder) (h : remaining ≤ 0) :
    matchSellLoop price taker remaining s = (remaining, s, []) := by
  cases s with
  | nil => rfl
  | cons e rest =>
    obtain ⟨best, q⟩ := e
    simp [matchSellLoop, h]

/-- The incoming quantity never goes negative across the matching loop. -/
theorem matchSellLoop_nonneg (price : Int) (taker : Nat) :
    ∀ (s : Ladder) (remaining : Int), 0 ≤ remaining →
      0 ≤ (matchSellLoop price taker remaining s).1 := by
  intro s
  induction s with
  | nil => intro r h; exact h
  | cons e rest ih =>
    obtain ⟨best, q⟩ := e
    intro r h
    simp only [matchSellLoop]
    split_ifs with h1 h2 h3 h4
    · exact h
    · exact h
    · exact le_of_eq h4.symm
    · exact ih _ (drainLevel_nonneg taker q r h)
    · exact drainLevel_nonneg taker q r h

/-- The keys of the opposite ladder after matching are a suffix of its
keys before. -/
theorem matchSellLoop_keys_suffix (price : Int) (taker : Nat) :
    ∀ (s : Ladder) (remaining : Int),
      (matchSellLoop price taker remaining s).2.1.keys <:+ s.keys := by
  intro s
  induction s with
  | nil => intro r; exact List.suffix_refl _
  | cons e rest ih =>
    obtain ⟨best, q⟩ := e
    intro r
    simp only [matchSellLoop]
    split_ifs with h1 h2 h3 h4
    · exact List.suffix_refl _
    · exact List.suffix_refl _
    · exact List.suffix_cons best (Ladder.keys rest)
    · exact (ih _).trans (List.suffix_cons best (Ladder.keys rest))
    · exact List.suffix_refl _

/-- How the sell matching loop can stop with quantity left. -/
theorem matchSellLoop_exit (price : Int) (taker : Nat) :
    ∀ (s : Ladder) (remaining : Int), 0 < remaining →
      (matchSellLoop price taker remaining s).1 = 0 ∨
      (matchSellLoop price taker remaining s).2.1 = [] ∨
      ∃ best q rest, (matchSellLoop price taker remaining s).2.1 = (best, q) :: rest ∧
        best < price := by
  intro s
  induction s with
  | nil => intro r _; right; left; rfl
  | cons e rest ih =>
    obtain ⟨best, q⟩ := e
    intro r hr
    simp only [matchSellLoop]
    split_ifs with h1 h2 h3 h4
    · exact absurd hr (by omega)
    · exact Or.inr (Or.inr ⟨best, q, rest, rfl, h2⟩)
    · exact Or.inl h4
    · have h5 : 0 < (drainLevel taker r q).1 :=
        lt_of_le_of_ne (drainLevel_nonneg taker q r (le_of_lt hr)) (Ne.symm h4)
      exact ih _ h5
    · rcases drainLevel_exhausted_or_empty taker q r hr with h5 | h5
      · exact Or.inl h5
      · exact absurd (List.isEmpty_iff.mpr h5) h3

/-- Quantity conservation across the sell matching loop. -/
theorem matchSellLoop_qty_sum (price : Int) (taker : Nat) :
    ∀ (s : Ladder) (remaining : Int),
      (matchSellLoop price taker remaining s).1 +
        tradesQty (matchSellLoop price taker remaining s).2.2 = remaining := by
  intro s
  induction s with
  | nil => intro r; simp [matchSellLoop, tradesQty]
  | cons e rest ih =>
    obtain ⟨best, q⟩ := e
    intro r
    simp only [matchSellLoop]
    split_ifs with h1 h2 h3 h4
    · simp [tradesQty]
    · simp [tradesQty]
    · exact drainLevel_qty_sum taker q r
    · have hd := drainLevel_qty_sum taker q r
      have hi := ih (drainLevel taker r q).1
      dsimp only
      rw [tradesQty_append]
      omega
    · exact drainLevel_qty_sum taker q r

/-- Quantity conservation for the resting side of the sell loop. -/
theorem matchSellLoop_total_sum (price : Int) (taker : Nat) :
    ∀ (s : Ladder) (remaining : Int),
      Ladder.totalQty s = Ladder.totalQty (matchSellLoop price taker remaining s).2.1 +
        tradesQty (matchSellLoop price taker remaining s).2.2 := by
  intro s
  induction s with
  | nil => intro r; simp [matchSellLoop, tradesQty, Ladder.totalQty]
  | cons e rest ih =>
    obtain ⟨best, q⟩ := e
    intro r
    have hq := drainLevel_level_sum taker q r
    have hqnil : Ladder.queueQty ([] : List Order) = 0 := rfl
    rw [Ladder.totalQty_cons]
    simp only [matchSellLoop]
    split_ifs with h1 h2 h3 h4
    · rw [Ladder.totalQty_cons]
      simp only [tradesQty, List.map_nil, List.sum_nil]
      omega
    · rw [Ladder.totalQty_cons]
      simp only [tradesQty, List.map_nil, List.sum_nil]
      omega
    · have h3' : (drainLevel taker r q).2.1 = [] := List.isEmpty_iff.mp h3
      rw [h3', hqnil] at hq
      dsimp only
      omega
    · have h3' : (drainLevel taker r q).2.1 = [] := List.isEmpty_iff.mp h3
      rw [h3', hqnil] at hq
      have hi := ih (drainLevel taker r q).1
      dsimp only
      rw [tradesQty_append]
      omega
    · dsimp only
      rw [Ladder.totalQty_cons]
      dsimp only
      omega

/-- Every trade of the sell loop records a resting bid's id and price as
maker and the incoming id as taker. -/
theorem matchSellLoop_trade_src (price : Int) (taker : Nat) :
    ∀ (s : Ladder) (remaining : Int) (t : Trade),
      t ∈ (matchSellLoop price taker remaining s).2.2 →
      t.taker_id = taker ∧ ∃ e ∈ s, ∃ o ∈ e.2, t.maker_id = o.id ∧ t.price = o.price := by
  intro s
  induction s with
  | nil => intro r t ht; simp [matchSellLoop] at ht
  | cons e rest ih =>
    obtain ⟨best, q⟩ := e
    intro r t ht
    simp only [matchSellLoop] at ht
    split_ifs at ht with h1 h2 h3 h4
    · simp at ht
    · simp at ht
    · obtain ⟨hta, o, ho, hmk, hpr⟩ := drainLevel_trade_src taker q r t ht
      exact ⟨hta, (best, q), List.mem_cons_self _ _, o, ho, hmk, hpr⟩
    · rcases List.mem_append.mp ht with ht' | ht'
      · obtain ⟨hta, o, ho, hmk, hpr⟩ := drainLevel_trade_src taker q r t ht'
        exact ⟨hta, (best, q), List.mem_cons_self _ _, o, ho, hmk, hpr⟩
      · obtain ⟨hta, e, he, o, ho, hmk, hpr⟩ := ih _ t ht'
        exact ⟨hta, e, List.mem_cons_of_mem _ he, o, ho, hmk, hpr⟩
    · obtain ⟨hta, o, ho, hmk, hpr⟩ := drainLevel_trade_src taker q r t ht
      exact ⟨hta, (best, q), List.mem_cons_self _ _, o, ho, hmk, hpr⟩

/-- Makers of the sell matching loop come from the buy ladder. -/
theorem matchSellLoop_makers_mem (price : Int) (taker : Nat) (s : Ladder)
    (remaining : Int) (t : Trade)
    (ht : t ∈ (matchSellLoop price taker remaining s).2.2) :
    t.maker_id ∈ Ladder.ids s := by
  obtain ⟨-, e, he, o, ho, hmk, -⟩ := matchSellLoop_trade_src price taker s remaining t ht
  exact List.mem_flatMap.mpr ⟨e, he, hmk ▸ List.mem_map_of_mem Order.id ho⟩

/-- An incoming sell never receives less than its limit. -/
theorem matchSellLoop_price_ge (price : Int) (taker : Nat) :
    ∀ (s : Ladder) (remaining : Int), Ladder.pricesMatch s →
      ∀ t ∈ (matchSellLoop price taker remaining s).2.2, price ≤ t.price := by
  intro s
  induction s with
  | nil => intro r _ t ht; simp [matchSellLoop] at ht
  | cons e rest ih =>
    obtain ⟨best, q⟩ := e
    intro r hpm t ht
    have hpm_head : ∀ o ∈ q, o.price = best := fun o ho =>
      hpm (best, q) (List.mem_cons_self _ _) o ho
    have hpm_rest : Ladder.pricesMatch rest := fun e he o ho =>
      hpm e (List.mem_cons_of_mem _ he) o ho
    simp only [matchSellLoop] at ht
    split_ifs at ht with h1 h2 h3 h4
    · simp at ht
    · simp at ht
    · obtain ⟨-, o, ho, -, hpr⟩ := drainLevel_trade_src taker q r t ht
      rw [hpr, hpm_head o ho]
      omega
    · rcases List.mem_append.mp ht with ht' | ht'
      · obtain ⟨-, o, ho, -, hpr⟩ := drainLevel_trade_src taker q r t ht'
        rw [hpr, hpm_head o ho]
        omega
      · exact ih _ hpm_rest t ht'
    · obtain ⟨-, o, ho, -, hpr⟩ := drainLevel_trade_src taker q r t ht
      rw [hpr, hpm_head o ho]
      omega

/-- Time priority across the sell matching loop. -/
theorem matchSellLoop_fifo (price : Int) (taker : Nat) (o1 o2 : Order)
    (m1 m2 m3 : List Order) :
    ∀ (s : Ladder) (remaining : Int) (p : Int),
      (Ladder.ids s).Nodup → (p, m1 ++ o1 :: m2 ++ o2 :: m3) ∈ s →
      o2.id ∈ ((matchSellLoop price taker remaining s).2.2).map Trade.maker_id →
      [o1.id, o2.id].Sublist
        (((matchSellLoop price taker remaining s).2.2).map Trade.maker_id) := by
  intro s
  induction s with
  | nil => intro r p _ hpq; exact absurd hpq (List.not_mem_nil _)
  | cons e rest ih =>
    obtain ⟨best, qb⟩ := e
    intro r p hnd hpq hm
    rw [Ladder.ids_cons] at hnd
    obtain ⟨hnd1, hnd2, hdisj⟩ := List.nodup_append.mp hnd
    have ho2Q : o2.id ∈ (m1 ++ o1 :: m2 ++ o2 :: m3).map Order.id := by simp
    simp only [matchSellLoop] at hm ⊢
    split_ifs at hm ⊢ with h1 h2 h3 h4
    · simp at hm
    · simp at hm
    · rcases List.mem_cons.mp hpq with heq | hpq'
      · have hq : m1 ++ o1 :: m2 ++ o2 :: m3 = qb := congrArg Prod.snd heq
        subst hq
        exact drainLevel_fifo taker r o1 o2 m1 m2 m3 hnd1 hm
      · exfalso
        obtain ⟨t, ht, hmk⟩ := List.mem_map.mp hm
        have hin : t.maker_id ∈ qb.map Order.id := drainLevel_makers_sub taker qb r t ht
        have hin' : o2.id ∈ Ladder.ids rest := List.mem_flatMap.mpr ⟨_, hpq', ho2Q⟩
        exact hdisj (hmk ▸ hin) hin'
    · rw [List.map_append] at hm ⊢
      rcases List.mem_cons.mp hpq with heq | hpq'
      · have hq : m1 ++ o1 :: m2 ++ o2 :: m3 = qb := congrArg Prod.snd heq
        subst hq
        rcases List.mem_append.mp hm with hm' | hm'
        · exact (drainLevel_fifo taker r o1 o2 m1 m2 m3 hnd1 hm').trans
            (List.sublist_append_left _ _)
        · exfalso
          obtain ⟨t, ht, hmk⟩ := List.mem_map.mp hm'
          have hin : t.maker_id ∈ Ladder.ids rest :=
            matchSellLoop_makers_mem price taker rest _ t ht
          exact hdisj ho2Q (hmk ▸ hin)
      · rcases List.mem_append.mp hm with hm' | hm'
        · exfalso
          obtain ⟨t, ht, hmk⟩ := List.mem_map.mp hm'
          have hin : t.maker_id ∈ qb.map Order.id := drainLevel_makers_sub taker qb r t ht
          have hin' : o2.id ∈ Ladder.ids rest := List.mem_flatMap.mpr ⟨_, hpq', ho2Q⟩
          exact hdisj (hmk ▸ hin) hin'
        · exact (ih _ p hnd2 hpq' hm').trans (List.sublist_append_right _ _)
    · rcases List.mem_cons.mp hpq with heq | hpq'
      · have hq : m1 ++ o1 :: m2 ++ o2 :: m3 = qb := congrArg Prod.snd heq
        subst hq
        exact drainLevel_fifo taker r o1 o2 m1 m2 m3 hnd1 hm
      · exfalso
        obtain ⟨t, ht, hmk⟩ := List.mem_map.mp hm
        have hin : t.maker_id ∈ qb.map Order.id := drainLevel_makers_sub taker qb r t ht
        have hin' : o2.id ∈ Ladder.ids rest := List.mem_flatMap.mpr ⟨_, hpq', ho2Q⟩
        exact hdisj (hmk ▸ hin) hin'

/-- A partial fill of a maker across the sell matching loop. -/
theorem matchSellLoop_partial (price : Int) (taker : Nat) (o : Order) (t : Trade) :
    ∀ (s : Ladder) (remaining : Int) (p : Int) (q : List Order),
      (Ladder.ids s).Nodup → (p, q) ∈ s → o ∈ q →
      t ∈ (matchSellLoop price taker remaining s).2.2 → t.maker_id = o.id →
      t.quantity < o.quantity →
      (matchSellLoop price taker remaining s).1 = 0 ∧
      (matchSellLoop price taker remaining s).2.2.getLast? = some t ∧
      ∃ rest2, Ladder.get? (matchSellLoop price taker remaining s).2.1 p =
        some (({ o with quantity := o.quantity - t.quantity } : Order) :: rest2) := by
  intro s
  induction s with
  | nil => intro r p q _ hpq; exact absurd hpq (List.not_mem_nil _)
  | cons e rest ih =>
    obtain ⟨best, qb⟩ := e
    intro r p q hnd hpq ho ht hmk hqty
    rw [Ladder.ids_cons] at hnd
    obtain ⟨hnd1, hnd2, hdisj⟩ := List.nodup_append.mp hnd
    have hoQ : o.id ∈ q.map Order.id := List.mem_map_of_mem Order.id ho
    simp only [matchSellLoop] at ht ⊢
    split_ifs at ht ⊢ with h1 h2 h3 h4
    · simp at ht
    · simp at ht
    · exfalso
      rcases List.mem_cons.mp hpq with heq | hpq'
      · have hq : q = qb := congrArg Prod.snd heq
        subst hq
        obtain ⟨-, -, rest2, hc⟩ := drainLevel_partial taker q r o t hnd1 ho ht hmk hqty
        rw [List.isEmpty_iff.mp h3] at hc
        exact List.noConfusion hc
      · have hin : t.maker_id ∈ qb.map Order.id := drainLevel_makers_sub taker qb r t ht
        have hin' : o.id ∈ Ladder.ids rest := List.mem_flatMap.mpr ⟨_, hpq', hoQ⟩
        exact hdisj (hmk ▸ hin) hin'
    · rcases List.mem_cons.mp hpq with heq | hpq'
      · exfalso
        have hq : q = qb := congrArg Prod.snd heq
        subst hq
        rcases List.mem_append.mp ht with ht' | ht'
        · obtain ⟨-, -, rest2, hc⟩ := drainLevel_partial taker q r o t hnd1 ho ht' hmk hqty
          rw [List.isEmpty_iff.mp h3] at hc
          exact List.noConfusion hc
        · have hin : t.maker_id ∈ Ladder.ids rest :=
            matchSellLoop_makers_mem price taker rest _ t ht'
          exact hdisj hoQ (hmk ▸ hin)
      · have ht' : t ∈ (matchSellLoop price taker (drainLevel taker r qb).1 rest).2.2 := by
          rcases List.mem_append.mp ht with ht' | ht'
          · exfalso
            have hin : t.maker_id ∈ qb.map Order.id := drainLevel_makers_sub taker qb r t ht'
            have hin' : o.id ∈ Ladder.ids rest := List.mem_flatMap.mpr ⟨_, hpq', hoQ⟩
            exact hdisj (hmk ▸ hin) hin'
          · exact ht'
        obtain ⟨ha, hb, rest2, hc⟩ := ih _ p q hnd2 hpq' ho ht' hmk hqty
        refine ⟨ha, ?_, rest2, hc⟩
        dsimp only
        rw [List.getLast?_append_of_ne_nil _ (List.ne_nil_of_mem ht')]
        exact hb
    · rcases List.mem_cons.mp hpq with heq | hpq'
      · have hp : p = best := congrArg Prod.fst heq
        have hq : q = qb := congrArg Prod.snd heq
        subst hq
        subst hp
        obtain ⟨ha, hb, rest2, hc⟩ := drainLevel_partial taker q r o t hnd1 ho ht hmk hqty
        refine ⟨ha, hb, rest2, ?_⟩
        rw [hc] at h3 ⊢
        simp [Ladder.get?]
      · exfalso
        have hin : t.maker_id ∈ qb.map Order.id := drainLevel_makers_sub taker qb r t ht
        have hin' : o.id ∈ Ladder.ids rest := List.mem_flatMap.mpr ⟨_, hpq', hoQ⟩
        exact hdisj (hmk ▸ hin) hin'

/-! ## Insertion lemmas -/

theorem Ladder.insertAsc_keys_subset (p : Int) (o : Order) :
    ∀ (l : Ladder), ∀ k ∈ (Ladder.insertAsc l p o).keys, k = p ∨ k ∈ l.keys := by
  intro l
  induction l with
  | nil => intro k hk; simp [Ladder.insertAsc, Ladder.keys] at hk; exact Or.inl hk
  | cons e rest ih =>
    obtain ⟨k0, q0⟩ := e
    intro k hk
    simp only [Ladder.insertAsc] at hk
    split_ifs at hk with h1 h2
    · rcases List.mem_cons.mp hk with rfl | hk'
      · exact Or.inr (List.mem_cons_self _ _)
      · exact Or.inr (List.mem_cons_of_mem _ hk')
    · rcases List.mem_cons.mp hk with rfl | hk'
      · exact Or.inl rfl
      · exact Or.inr hk'
    · rcases List.mem_cons.mp hk with rfl | hk'
      · exact Or.inr (List.mem_cons_self _ _)
      · rcases ih k hk' with h | h
        · exact Or.inl h
        · exact Or.inr (List.mem_cons_of_mem _ h)

theorem Ladder.insertDesc_keys_subset (p : Int) (o : Order) :
    ∀ (l : Ladder), ∀ k ∈ (Ladder.insertDesc l p o).keys, k = p ∨ k ∈ l.keys := by
  intro l
  induction l with
  | nil => intro k hk; simp [Ladder.insertDesc, Ladder.keys] at hk; exact Or.inl hk
  | cons e rest ih =>
    obtain ⟨k0, q0⟩ := e
    intro k hk
    simp only [Ladder.insertDesc] at hk
    split_ifs at hk with h1 h2
    · rcases List.mem_cons.mp hk with rfl | hk'
      · exact Or.inr (List.mem_cons_self _ _)
      · exact Or.inr (List.mem_cons_of_mem _ hk')
    · rcases List.mem_cons.mp hk with rfl | hk'
      · exact Or.inl rfl
      · exact Or.inr hk'
    · rcases List.mem_cons.mp hk with rfl | hk'
      · exact Or.inr (List.mem_cons_self _ _)
      · rcases ih k hk' with h | h
        · exact Or.inl h
        · exact Or.inr (List.mem_cons_of_mem _ h)

theorem Ladder.insertAsc_sortedAsc (p : Int) (o : Order) :
    ∀ (l : Ladder), Ladder.sortedAsc l → Ladder.sortedAsc (Ladder.insertAsc l p o) := by
  intro l
  induction l with
  | nil => intro _; simp [Ladder.insertAsc, Ladder.sortedAsc, Ladder.keys]
  | cons e rest ih =>
    obtain ⟨k0, q0⟩ := e
    intro h
    rw [Ladder.sortedAsc, Ladder.keys_cons, List.pairwise_cons] at h
    obtain ⟨hhead, htail⟩ := h
    simp only [Ladder.insertAsc]
    split_ifs with h1 h2
    · rw [Ladder.sortedAsc, Ladder.keys_cons, List.pairwise_cons]
      exact ⟨hhead, htail⟩
    · rw [Ladder.sortedAsc, Ladder.keys_cons, List.pairwise_cons]
      refine ⟨?_, ?_⟩
      · intro k hk
        rcases List.mem_cons.mp hk with rfl | hk'
        · exact h2
        · exact lt_trans h2 (hhead k hk')
      · rw [Ladder.keys_cons, List.pairwise_cons]
        exact ⟨hhead, htail⟩
    · have hk0p : k0 < p := by omega
      rw [Ladder.sortedAsc, Ladder.keys_cons, List.pairwise_cons]
      refine ⟨?_, ih htail⟩
      intro k hk
      rcases Ladder.insertAsc_keys_subset p o rest k hk with rfl | hk'
      · exact hk0p
      · exact hhead k hk'

theorem Ladder.insertDesc_sortedDesc (p : Int) (o : Order) :
    ∀ (l : Ladder), Ladder.sortedDesc l → Ladder.sortedDesc (Ladder.insertDesc l p o) := by
  intro l
  induction l with
  | nil => intro _; simp [Ladder.insertDesc, Ladder.sortedDesc, Ladder.keys]
  | cons e rest ih =>
    obtain ⟨k0, q0⟩ := e
    intro h
    rw [Ladder.sortedDesc, Ladder.keys_cons, List.pairwise_cons] at h
    obtain ⟨hhead, htail⟩ := h
    simp only [Ladder.insertDesc]
    split_ifs with h1 h2
    · rw [Ladder.sortedDesc, Ladder.keys_cons, List.pairwise_cons]
      exact ⟨hhead, htail⟩
    · rw [Ladder.sortedDesc, Ladder.keys_cons, List.pairwise_cons]
      refine ⟨?_, ?_⟩
      · intro k hk
        rcases List.mem_cons.mp hk with rfl | hk'
        · exact h2
        · exact lt_trans (hhead k hk') h2
      · rw [Ladder.keys_cons, List.pairwise_cons]
        exact ⟨hhead, htail⟩
    · have hk0p : p < k0 := by omega
      rw [Ladder.sortedDesc, Ladder.keys_cons, List.pairwise_cons]
      refine ⟨?_, ih htail⟩
      intro k hk
      rcases Ladder.insertDesc_keys_subset p o rest k hk with rfl | hk'
      · exact hk0p
      · exact hhead k hk'

theorem Ladder.insertAsc_totalQty (p : Int) (o : Order) :
    ∀ (l : Ladder),
      Ladder.totalQty (Ladder.insertAsc l p o) = Ladder.totalQty l + o.quantity := by
  intro l
  induction l with
  | nil => simp [Ladder.insertAsc, Ladder.totalQty, Ladder.queueQty]
  | cons e rest ih =>
    obtain ⟨k0, q0⟩ := e
    simp only [Ladder.insertAsc]
    split_ifs with h1 h2
    · rw [Ladder.totalQty_cons, Ladder.totalQty_cons]
      simp only [Ladder.queueQty, List.map_append, List.sum_append, List.map_cons,
        List.map_nil, List.sum_cons, List.sum_nil]
      omega
    · simp only [Ladder.totalQty, Ladder.queueQty, List.map_cons, List.map_nil,
        List.sum_cons, List.sum_nil]
      omega
    · rw [Ladder.totalQty_cons, Ladder.totalQty_cons, ih]
      omega

theorem Ladder.insertDesc_totalQty (p : Int) (o : Order) :
    ∀ (l : Ladder),
      Ladder.totalQty (Ladder.insertDesc l p o) = Ladder.totalQty l + o.quantity := by
  intro l
  induction l with
  | nil => simp [Ladder.insertDesc, Ladder.totalQty, Ladder.queueQty]
  | cons e rest ih =>
    obtain ⟨k0, q0⟩ := e
    simp only [Ladder.insertDesc]
    split_ifs with h1 h2
    · rw [Ladder.totalQty_cons, Ladder.totalQty_cons]
      simp only [Ladder.queueQty, List.map_append, List.sum_append, List.map_cons,
        List.map_nil, List.sum_cons, List.sum_nil]
      omega
    · simp only [Ladder.totalQty, Ladder.queueQty, List.map_cons, List.map_nil,
        List.sum_cons, List.sum_nil]
      omega
    · rw [Ladder.totalQty_cons, Ladder.totalQty_cons, ih]
      omega

theorem Ladder.insertAsc_nonempty (p : Int) (o : Order) :
    ∀ (l : Ladder), (∀ e ∈ l, e.2 ≠ []) →
      ∀ e ∈ Ladder.insertAsc l p o, e.2 ≠ [] := by
  intro l
  induction l with
  | nil =>
    intro _ e he
    simp only [Ladder.insertAsc, List.mem_singleton] at he
    subst he
    simp
  | cons e0 rest ih =>
    obtain ⟨k0, q0⟩ := e0
    intro h e he
    have hq0 : q0 ≠ [] := h (k0, q0) (List.mem_cons_self _ _)
    have hrest : ∀ e ∈ rest, e.2 ≠ [] := fun e he => h e (List.mem_cons_of_mem _ he)
    simp only [Ladder.insertAsc] at he
    split_ifs at he with h1 h2
    · rcases List.mem_cons.mp he with rfl | he'
      · simp
      · exact hrest e he'
    · rcases List.mem_cons.mp he with rfl | he'
      · simp
      · exact h e he'
    · rcases List.mem_cons.mp he with rfl | he'
      · exact hq0
      · exact ih hrest e he'

theorem Ladder.insertDesc_nonempty (p : Int) (o : Order) :
    ∀ (l : Ladder), (∀ e ∈ l, e.2 ≠ []) →
      ∀ e ∈ Ladder.insertDesc l p o, e.2 ≠ [] := by
  intro l
  induction l with
  | nil =>
    intro _ e he
    simp only [Ladder.insertDesc, List.mem_singleton] at he
    subst he
    simp
  | cons e0 rest ih =>
    obtain ⟨k0, q0⟩ := e0
    intro h e he
    have hq0 : q0 ≠ [] := h (k0, q0) (List.mem_cons_self _ _)
    have hrest : ∀ e ∈ rest, e.2 ≠ [] := fun e he => h e (List.mem_cons_of_mem _ he)
    simp only [Ladder.insertDesc] at he
    split_ifs at he with h1 h2
    · rcases List.mem_cons.mp he with rfl | he'
      · simp
      · exact hrest e he'
    · rcases List.mem_cons.mp he with rfl | he'
      · simp
      · exact h e he'
    · rcases List.mem_cons.mp he with rfl | he'
      · exact hq0
      · exact ih hrest e he'

/-- Matching never leaves an empty level behind: the drained level is
either removed or kept non-empty. -/
theorem matchBuyLoop_nonempty (price : Int) (taker : Nat) :
    ∀ (s : Ladder) (remaining : Int), (∀ e ∈ s, e.2 ≠ []) →
      ∀ e ∈ (matchBuyLoop price taker remaining s).2.1, e.2 ≠ [] := by
  intro s
  induction s with
  | nil => intro r h e he; exact absurd he (List.not_mem_nil _)
  | cons e0 rest ih =>
    obtain ⟨best, q⟩ := e0
    intro r h e he
    have hrest : ∀ e ∈ rest, e.2 ≠ [] := fun e he => h e (List.mem_cons_of_mem _ he)
    simp only [matchBuyLoop] at he
    split_ifs at he with h1 h2 h3 h4
    · exact h e he
    · exact h e he
    · exact hrest e he
    · exact ih _ hrest e he
    · rcases List.mem_cons.mp he with rfl | he'
      · intro hc
        exact h3 (List.isEmpty_iff.mpr hc)
      · exact hrest e he'

/-- Mirror of `matchBuyLoop_nonempty`. -/
theorem matchSellLoop_nonempty (price : Int) (taker : Nat) :
    ∀ (s : Ladder) (remaining : Int), (∀ e ∈ s, e.2 ≠ []) →
      ∀ e ∈ (matchSellLoop price taker remaining s).2.1, e.2 ≠ [] := by
  intro s
  induction s with
  | nil => intro r h e he; exact absurd he (List.not_mem_nil _)
  | cons e0 rest ih =>
    obtain ⟨best, q⟩ := e0
    intro r h e he
    have hrest : ∀ e ∈ rest, e.2 ≠ [] := fun e he => h e (List.mem_cons_of_mem _ he)
    simp only [matchSellLoop] at he
    split_ifs at he with h1 h2 h3 h4
    · exact h e he
    · exact h e he
    · exact hrest e he
    · exact ih _ hrest e he
    · rcases List.mem_cons.mp he with rfl | he'
      · intro hc
        exact h3 (List.isEmpty_iff.mpr hc)
      · exact hrest e he'

/-! ## Book invariants: non-crossing and level cleanup -/

theorem notCrossed_of_keys (b : OrderBook)
    (h : ∀ kb ∈ Ladder.keys b.buy_levels, ∀ ks ∈ Ladder.keys b.sell_levels, kb < ks) :
    b.notCrossed = true := by
  unfold OrderBook.notCrossed OrderBook.best_buy OrderBook.best_sell
  cases hb : b.buy_levels with
  | nil => rfl
  | cons eb restb =>
    cases hs : b.sell_levels with
    | nil => rfl
    | cons es rests =>
      have hlt : eb.1 < es.1 := by
        refine h eb.1 ?_ es.1 ?_
        · rw [hb, Ladder.keys_cons]; exact List.mem_cons_self _ _
        · rw [hs, Ladder.keys_cons]; exact List.mem_cons_self _ _
      simp only [List.head?, Option.map_some']
      exact decide_eq_true hlt

theorem invariant_keys_lt (b : OrderBook) (hinv : b.invariant) :
    ∀ kb ∈ Ladder.keys b.buy_levels, ∀ ks ∈ Ladder.keys b.sell_levels, kb < ks := by
  obtain ⟨hdesc, hasc, hnc⟩ := hinv
  intro kb hkb ks hks
  cases hb : b.buy_levels with
  | nil => rw [hb] at hkb; exact absurd hkb (List.not_mem_nil _)
  | cons eb restb =>
    cases hs : b.sell_levels with
    | nil => rw [hs] at hks; exact absurd hks (List.not_mem_nil _)
    | cons es rests =>
      rw [hb] at hkb hdesc
      rw [hs] at hks hasc
      rw [Ladder.sortedDesc, Ladder.keys_cons, List.pairwise_cons] at hdesc
      rw [Ladder.sortedAsc, Ladder.keys_cons, List.pairwise_cons] at hasc
      have hble : kb ≤ eb.1 := by
        rw [Ladder.keys_cons] at hkb
        rcases List.mem_cons.mp hkb with rfl | hkb'
        · exact le_refl _
        · exact le_of_lt (hdesc.1 kb hkb')
      have hsle : es.1 ≤ ks := by
        rw [Ladder.keys_cons] at hks
        rcases List.mem_cons.mp hks with rfl | hks'
        · exact le_refl _
        · exact le_of_lt (hasc.1 ks hks')
      have hlt : eb.1 < es.1 := by
        unfold OrderBook.notCrossed OrderBook.best_buy OrderBook.best_sell at hnc
        rw [hb, hs] at hnc
        simp only [List.head?, Option.map_some'] at hnc
        exact of_decide_eq_true hnc
      omega

/-- One `place_order` call preserves the book invariant (sorted ladders
and non-crossing), for any arguments. -/
theorem place_order_invariant (b : OrderBook) (side : Side) (price quantity : Int)
    (id : Nat) (hinv : b.invariant) :
    (b.place_order side price quantity id).2.invariant := by
  obtain ⟨hdesc, hasc, hnc⟩ := hinv
  cases side with
  | Buy =>
    have hsuf := matchBuyLoop_keys_suffix price id b.sell_levels quantity
    have hasc' : Ladder.sortedAsc (matchBuyLoop price id quantity b.sell_levels).2.1 :=
      List.Pairwise.sublist hsuf.sublist hasc
    simp only [OrderBook.place_order]
    split_ifs with hpos
    · have hq : 0 < quantity := by
        by_contra hq
        push_neg at hq
        rw [matchBuyLoop_nonpos price id quantity b.sell_levels hq] at hpos
        exact absurd hpos (by omega)
      refine ⟨?_, ?_, ?_⟩
      · exact Ladder.insertDesc_sortedDesc price _ b.buy_levels hdesc
      · exact hasc'
      · apply notCrossed_of_keys
        dsimp only
        intro kb hkb ks hks
        rcases Ladder.insertDesc_keys_subset price _ b.buy_levels kb hkb with hkp | hkb'
        · rw [hkp]
          rcases matchBuyLoop_exit price id b.sell_levels quantity hq with
            h0 | hemp | ⟨bst, q', rest', heq, hlt⟩
          · exact absurd h0 (by omega)
          · rw [hemp] at hks
            exact absurd hks (List.not_mem_nil _)
          · rw [heq] at hks hasc'
            rw [Ladder.keys_cons] at hks
            rw [Ladder.sortedAsc, Ladder.keys_cons, List.pairwise_cons] at hasc'
            rcases List.mem_cons.mp hks with rfl | hks'
            · exact hlt
            · exact lt_trans hlt (hasc'.1 ks hks')
        · exact invariant_keys_lt b ⟨hdesc, hasc, hnc⟩ kb hkb'
            ks (hsuf.sublist.subset hks)
    · refine ⟨hdesc, hasc', ?_⟩
      apply notCrossed_of_keys
      dsimp only
      intro kb hkb ks hks
      exact invariant_keys_lt b ⟨hdesc, hasc, hnc⟩ kb hkb ks (hsuf.sublist.subset hks)
  | Sell =>
    have hsuf := matchSellLoop_keys_suffix price id b.buy_levels quantity
    have hdesc' : Ladder.sortedDesc (matchSellLoop price id quantity b.buy_levels).2.1 :=
      List.Pairwise.sublist hsuf.sublist hdesc
    simp only [OrderBook.place_order]
    split_ifs with hpos
    · have hq : 0 < quantity := by
        by_contra hq
        push_neg at hq
        rw [matchSellLoop_nonpos price id quantity b.buy_levels hq] at hpos
        exact absurd hpos (by omega)
      refine ⟨?_, ?_, ?_⟩
      · exact hdesc'
      · exact Ladder.insertAsc_sortedAsc price _ b.sell_levels hasc
      · apply notCrossed_of_keys
        dsimp only
        intro kb hkb ks hks
        rcases Ladder.insertAsc_keys_subset price _ b.sell_levels ks hks with hkp | hks'
        · rw [hkp]
          rcases matchSellLoop_exit price id b.buy_levels quantity hq with
            h0 | hemp | ⟨bst, q', rest', heq, hlt⟩
          · exact absurd h0 (by omega)
          · rw [hemp] at hkb
            exact absurd hkb (List.not_mem_nil _)
          · rw [heq] at hkb hdesc'
            rw [Ladder.keys_cons] at hkb
            rw [Ladder.sortedDesc, Ladder.keys_cons, List.pairwise_cons] at hdesc'
            rcases List.mem_cons.mp hkb with rfl | hkb'
            · exact hlt
            · exact lt_trans (hdesc'.1 kb hkb') hlt
        · exact invariant_keys_lt b ⟨hdesc, hasc, hnc⟩ kb
            (hsuf.sublist.subset hkb) ks hks'
    · refine ⟨hdesc', hasc, ?_⟩
      apply notCrossed_of_keys
      dsimp only
      intro kb hkb ks hks
      exact invariant_keys_lt b ⟨hdesc, hasc, hnc⟩ kb (hsuf.sublist.subset hkb) ks hks

theorem execOrders_invariant :
    ∀ (cmds : List Cmd) (b : OrderBook), b.invariant → (execOrders b cmds).invariant := by
  intro cmds
  induction cmds with
  | nil => intro b h; exact h
  | cons c cs ih =>
    intro b h
    exact ih _ (place_order_invariant b c.side c.price c.quantity c.id h)

theorem levelsNonempty_iff (b : OrderBook) :
    b.levelsNonempty = true ↔
      ((∀ e ∈ b.buy_levels, e.2 ≠ []) ∧ ∀ e ∈ b.sell_levels, e.2 ≠ []) := by
  simp [OrderBook.levelsNonempty, List.all_eq_true]

/-- One `place_order` call preserves the absence of empty levels. -/
theorem place_order_levelsNonempty (b : OrderBook) (side : Side)
    (price quantity : Int) (id : Nat) (h : b.levelsNonempty = true) :
    (b.place_order side price quantity id).2.levelsNonempty = true := by
  rw [levelsNonempty_iff] at h
  obtain ⟨hb, hs⟩ := h
  cases side with
  | Buy =>
    simp only [OrderBook.place_order]
    split_ifs with hpos
    · rw [levelsNonempty_iff]
      exact ⟨Ladder.insertDesc_nonempty price _ b.buy_levels hb,
        matchBuyLoop_nonempty price id b.sell_levels quantity hs⟩
    · rw [levelsNonempty_iff]
      exact ⟨hb, matchBuyLoop_nonempty price id b.sell_levels quantity hs⟩
  | Sell =>
    simp only [OrderBook.place_order]
    split_ifs with hpos
    · rw [levelsNonempty_iff]
      exact ⟨matchSellLoop_nonempty price id b.buy_levels quantity hb,
        Ladder.insertAsc_nonempty price _ b.sell_levels hs⟩
    · rw [levelsNonempty_iff]
      exact ⟨matchSellLoop_nonempty price id b.buy_levels quantity hb, hs⟩

theorem execOrders_levelsNonempty :
    ∀ (cmds : List Cmd) (b : OrderBook), b.levelsNonempty = true →
      (execOrders b cmds).levelsNonempty = true := by
  intro cmds
  induction cmds with
  | nil => intro b h; exact h
  | cons c cs ih =>
    intro b h
    exact ih _ (place_order_levelsNonempty b c.side c.price c.quantity c.id h)

/-! ## Claim theorems -/

/-- **C1**: for every sequence of `place_order` calls with positive price
and quantity, after each call returns the book is not crossed — either the
bid ladder is empty, or the ask ladder is empty, or the best (highest) bid
price is strictly less than the best (lowest) ask price.  Quantifying over
all command lists covers every prefix, i.e. the state after each call. -/
theorem claim_C1_non_crossing (sym : String) (cmds : List Cmd)
    (hpos : ∀ c ∈ cmds, 0 < c.price ∧ 0 < c.quantity) :
    (execOrders (OrderBook.new sym) cmds).notCrossed = true :=
  (execOrders_invariant cmds (OrderBook.new sym)
    ⟨List.Pairwise.nil, List.Pairwise.nil, rfl⟩).2.2

theorem claim_C1_non_crossing_witness :
    (∀ c ∈ [Cmd.mk Side.Buy 100 5 1, Cmd.mk Side.Sell 90 3 2,
        Cmd.mk Side.Sell 95 9 3], 0 < c.price ∧ 0 < c.quantity) ∧
    (execOrders (OrderBook.new "V") [Cmd.mk Side.Buy 100 5 1,
        Cmd.mk Side.Sell 90 3 2, Cmd.mk Side.Sell 95 9 3]).notCrossed = true :=
  ⟨by decide, claim_C1_non_crossing "V" _ (by decide)⟩

/-- **C2**: for a single `place_order` call with positive quantity, the
submitted quantity equals the sum of the returned trades' quantities plus
the residual quantity left resting on the order's own ladder (zero when
nothing rests, measured as the change of the own ladder's total), and the
total traded quantity equals the quantity removed from resting orders
(the decrease of the opposite ladder's total). -/
theorem claim_C2_quantity_conservation (b : OrderBook) (side : Side)
    (price quantity : Int) (id : Nat) (hq : 0 < quantity) :
    quantity = tradesQty (b.place_order side price quantity id).1 +
      (Ladder.totalQty ((b.place_order side price quantity id).2.ownLadder side) -
        Ladder.totalQty (b.ownLadder side)) ∧
    tradesQty (b.place_order side price quantity id).1 =
      Ladder.totalQty (b.oppLadder side) -
        Ladder.totalQty ((b.place_order side price quantity id).2.oppLadder side) := by
  cases side with
  | Buy =>
    have hsum := matchBuyLoop_qty_sum price id b.sell_levels quantity
    have htot := matchBuyLoop_total_sum price id b.sell_levels quantity
    simp only [OrderBook.place_order, OrderBook.ownLadder, OrderBook.oppLadder]
    split_ifs with hpos
    · rw [Ladder.insertDesc_totalQty]
      dsimp only
      constructor <;> omega
    · have h0 : (matchBuyLoop price id quantity b.sell_levels).1 = 0 := by
        have := matchBuyLoop_nonneg price id b.sell_levels quantity (le_of_lt hq)
        omega
      dsimp only
      constructor <;> omega
  | Sell =>
    have hsum := matchSellLoop_qty_sum price id b.buy_levels quantity
    have htot := matchSellLoop_total_sum price id b.buy_levels quantity
    simp only [OrderBook.place_order, OrderBook.ownLadder, OrderBook.oppLadder]
    split_ifs with hpos
    · rw [Ladder.insertAsc_totalQty]
      dsimp only
      constructor <;> omega
    · have h0 : (matchSellLoop price id quantity b.buy_levels).1 = 0 := by
        have := matchSellLoop_nonneg price id b.buy_levels quantity (le_of_lt hq)
        omega
      dsimp only
      constructor <;> omega

theorem claim_C2_quantity_conservation_witness :
    (0 : Int) < 7 ∧
    (let b := (((OrderBook.new "V").place_order Side.Buy 100 5 1).2.place_order
        Side.Buy 99 4 2).2
     7 = tradesQty (b.place_order Side.Sell 99 7 3).1 +
      (Ladder.totalQty ((b.place_order Side.Sell 99 7 3).2.ownLadder Side.Sell) -
        Ladder.totalQty (b.ownLadder Side.Sell)) ∧
     tradesQty (b.place_order Side.Sell 99 7 3).1 =
      Ladder.totalQty (b.oppLadder Side.Sell) -
        Ladder.totalQty ((b.place_order Side.Sell 99 7 3).2.oppLadder Side.Sell)) :=
  ⟨by decide, claim_C2_quantity_conservation _ Side.Sell 99 7 3 (by decide)⟩

/-- **C3**: calling the engine's `place_order` with non-positive price or
quantity rejects the order before any state mutation: the result is the
validation error, no trades are produced, and the engine — both ladders,
the book's timestamp counter and the id counter — is returned unchanged. -/
theorem claim_C3_rejection_no_side_effects (e : TradingEngine) (side : Side)
    (price_int quantity_int : Int)
    (h : price_int ≤ 0 ∨ quantity_int ≤ 0) :
    (e.place_order side price_int quantity_int).1 =
      Except.error "Price and quantity must be positive" ∧
    (e.place_order side price_int quantity_int).2 = e := by
  simp only [TradingEngine.place_order]
  rw [if_pos (Or.elim h Or.inr Or.inl)]
  exact ⟨rfl, rfl⟩

theorem claim_C3_rejection_no_side_effects_witness :
    ((-3 : Int) ≤ 0 ∨ (5 : Int) ≤ 0) ∧
    (TradingEngine.new.place_order Side.Buy (-3) 5).1 =
      Except.error "Price and quantity must be positive" ∧
    (TradingEngine.new.place_order Side.Buy (-3) 5).2 = TradingEngine.new :=
  ⟨Or.inl (by decide),
    claim_C3_rejection_no_side_effects TradingEngine.new Side.Buy (-3) 5
      (Or.inl (by decide))⟩

/-- **C7**: after each `place_order` call starting from a new book, a
price level is present in a ladder if and only if its queue is non-empty;
in this model a queue exists only as a present level's entry, so the
invariant is that no present level has an empty queue — levels emptied by
matching are removed, and levels are created only by enqueueing the
resting remainder. -/
theorem claim_C7_level_iff_nonempty (sym : String) (cmds : List Cmd) :
    (execOrders (OrderBook.new sym) cmds).levelsNonempty = true :=
  execOrders_levelsNonempty cmds (OrderBook.new sym) rfl

/-- The trades returned by `place_order` are exactly the matching loop's
trades (resting the remainder adds no trade). -/
theorem place_order_trades_buy (b : OrderBook) (price quantity : Int) (id : Nat) :
    (b.place_order Side.Buy price quantity id).1 =
      (matchBuyLoop price id quantity b.sell_levels).2.2 := by
  simp only [OrderBook.place_order]
  split_ifs <;> rfl

/-- Mirror of `place_order_trades_buy`. -/
theorem place_order_trades_sell (b : OrderBook) (price quantity : Int) (id : Nat) :
    (b.place_order Side.Sell price quantity id).1 =
      (matchSellLoop price id quantity b.buy_levels).2.2 := by
  simp only [OrderBook.place_order]
  split_ifs <;> rfl

/-- The opposite ladder after `place_order` is exactly the matching loop's
ladder (the remainder rests on the order's own side). -/
theorem place_order_opp_buy (b : OrderBook) (price quantity : Int) (id : Nat) :
    (b.place_order Side.Buy price quantity id).2.sell_levels =
      (matchBuyLoop price id quantity b.sell_levels).2.1 := by
  simp only [OrderBook.place_order]
  split_ifs <;> rfl

/-- Mirror of `place_order_opp_buy`. -/
theorem place_order_opp_sell (b : OrderBook) (price quantity : Int) (id : Nat) :
    (b.place_order Side.Sell price quantity id).2.buy_levels =
      (matchSellLoop price id quantity b.buy_levels).2.1 := by
  simp only [OrderBook.place_order]
  split_ifs <;> rfl

/-- **C6**: every trade emitted by `place_order` carries the incoming
order's id as `taker_id` and a resting (maker) order's id and price as
`maker_id` and `price`; since the trade price is the maker's price, it
differs from the incoming limit whenever the maker's price does. -/
theorem claim_C6_trade_fields (b : OrderBook) (side : Side)
    (price quantity : Int) (id : Nat) (t : Trade)
    (ht : t ∈ (b.place_order side price quantity id).1) :
    t.taker_id = id ∧
    ∃ e ∈ b.oppLadder side, ∃ o ∈ e.2,
      t.maker_id = o.id ∧ t.price = o.price ∧
      (o.price ≠ price → t.price ≠ price) := by
  cases side with
  | Buy =>
    rw [place_order_trades_buy] at ht
    obtain ⟨hta, e, he, o, ho, hmk, hpr⟩ :=
      matchBuyLoop_trade_src price id b.sell_levels quantity t ht
    exact ⟨hta, e, he, o, ho, hmk, hpr, fun hop => by rw [hpr]; exact hop⟩
  | Sell =>
    rw [place_order_trades_sell] at ht
    obtain ⟨hta, e, he, o, ho, hmk, hpr⟩ :=
      matchSellLoop_trade_src price id b.buy_levels quantity t ht
    exact ⟨hta, e, he, o, ho, hmk, hpr, fun hop => by rw [hpr]; exact hop⟩

theorem claim_C6_trade_fields_witness :
    (⟨98, 5, 1, 2⟩ : Trade) ∈
      ((((OrderBook.new "V").place_order Side.Sell 98 5 1).2).place_order
        Side.Buy 100 5 2).1 ∧
    ((⟨98, 5, 1, 2⟩ : Trade).taker_id = 2 ∧
      ∃ e ∈ (((OrderBook.new "V").place_order Side.Sell 98 5 1).2).oppLadder Side.Buy,
        ∃ o ∈ e.2, (⟨98, 5, 1, 2⟩ : Trade).maker_id = o.id ∧
          (⟨98, 5, 1, 2⟩ : Trade).price = o.price ∧
          (o.price ≠ 100 → (⟨98, 5, 1, 2⟩ : Trade).price ≠ 100)) :=
  ⟨by decide,
    claim_C6_trade_fields (((OrderBook.new "V").place_order Side.Sell 98 5 1).2)
      Side.Buy 100 5 2 ⟨98, 5, 1, 2⟩ (by decide)⟩

/-- **C10**: on a book whose resting orders carry their level's price,
every trade of a `place_order` call executes no worse than the taker's
limit: at most the limit for an incoming buy, at least the limit for an
incoming sell. -/
theorem claim_C10_price_no_worse (b : OrderBook) (side : Side)
    (price quantity : Int) (id : Nat)
    (hpm : Ladder.pricesMatch (b.oppLadder side)) :
    ∀ t ∈ (b.place_order side price quantity id).1,
      match side with
      | Side.Buy => t.price ≤ price
      | Side.Sell => price ≤ t.price := by
  cases side with
  | Buy =>
    intro t ht
    rw [place_order_trades_buy] at ht
    exact matchBuyLoop_price_le price id b.sell_levels quantity hpm t ht
  | Sell =>
    intro t ht
    rw [place_order_trades_sell] at ht
    exact matchSellLoop_price_ge price id b.buy_levels quantity hpm t ht

theorem claim_C10_price_no_worse_witness :
    Ladder.pricesMatch
      ((((OrderBook.new "V").place_order Side.Sell 98 5 1).2).oppLadder Side.Buy) ∧
    (∀ t ∈ ((((OrderBook.new "V").place_order Side.Sell 98 5 1).2).place_order
        Side.Buy 100 7 2).1,
      match Side.Buy with
      | Side.Buy => t.price ≤ 100
      | Side.Sell => (100 : Int) ≤ t.price) :=
  ⟨by decide,
    claim_C10_price_no_worse (((OrderBook.new "V").place_order Side.Sell 98 5 1).2)
      Side.Buy 100 7 2 (by decide)⟩

/-- The fuelled buy loop agrees with the loop once the fuel exceeds the
number of levels: every outer iteration that continues removes a level. -/
theorem matchBuyLoopFuel_sufficient (price : Int) (taker : Nat) :
    ∀ (fuel : Nat) (s : Ladder) (remaining : Int), s.length < fuel →
      matchBuyLoopFuel price taker fuel remaining s =
        some (matchBuyLoop price taker remaining s) := by
  intro fuel
  induction fuel with
  | zero => intro s r h; exact absurd h (by omega)
  | succ n ih =>
    intro s r h
    cases s with
    | nil => rfl
    | cons e rest =>
      obtain ⟨best, q⟩ := e
      simp only [matchBuyLoopFuel, matchBuyLoop]
      split_ifs with h1 h2 h3 h4
      · rfl
      · rfl
      · rfl
      · rw [ih rest _ (by simpa using Nat.lt_of_succ_lt_succ h)]
        rfl
      · rfl

/-- Mirror of `matchBuyLoopFuel_sufficient`. -/
theorem matchSellLoopFuel_sufficient (price : Int) (taker : Nat) :
    ∀ (fuel : Nat) (s : Ladder) (remaining : Int), s.length < fuel →
      matchSellLoopFuel price taker fuel remaining s =
        some (matchSellLoop price taker remaining s) := by
  intro fuel
  induction fuel with
  | zero => intro s r h; exact absurd h (by omega)
  | succ n ih =>
    intro s r h
    cases s with
    | nil => rfl
    | cons e rest =>
      obtain ⟨best, q⟩ := e
      simp only [matchSellLoopFuel, matchSellLoop]
      split_ifs with h1 h2 h3 h4
      · rfl
      · rfl
      · rfl
      · rw [ih rest _ (by simpa using Nat.lt_of_succ_lt_succ h)]
        rfl
      · rfl

/-- **C8**: the matching loop of `place_order` terminates for every
positive quantity and well-formed book (all resting quantities positive):
one more outer iteration than the opposite ladder has levels always
suffices, because each continuing iteration strictly reduces the
incoming remainder or empties (and removes) the best level. -/
theorem claim_C8_termination (b : OrderBook) (side : Side) (price quantity : Int)
    (id : Nat) (hq : 0 < quantity) (hwf : Ladder.qtyPos (b.oppLadder side)) :
    b.place_order_fuel side price quantity id ((b.oppLadder side).length + 1) =
      some (b.place_order side price quantity id) := by
  cases side with
  | Buy =>
    simp only [OrderBook.place_order_fuel, OrderBook.place_order, OrderBook.oppLadder]
    rw [matchBuyLoopFuel_sufficient price id _ b.sell_levels quantity (by omega)]
    rfl
  | Sell =>
    simp only [OrderBook.place_order_fuel, OrderBook.place_order, OrderBook.oppLadder]
    rw [matchSellLoopFuel_sufficient price id _ b.buy_levels quantity (by omega)]
    rfl

theorem claim_C8_termination_witness :
    (0 : Int) < 9 ∧
    Ladder.qtyPos ((((OrderBook.new "V").place_order Side.Sell 98 5 1).2).oppLadder
      Side.Buy) ∧
    (((OrderBook.new "V").place_order Side.Sell 98 5 1).2).place_order_fuel
        Side.Buy 100 9 2
        (((((OrderBook.new "V").place_order Side.Sell 98 5 1).2).oppLadder
          Side.Buy).length + 1) =
      some ((((OrderBook.new "V").place_order Side.Sell 98 5 1).2).place_order
        Side.Buy 100 9 2) :=
  ⟨by decide, by decide,
    claim_C8_termination (((OrderBook.new "V").place_order Side.Sell 98 5 1).2)
      Side.Buy 100 9 2 (by decide) (by decide)⟩

/-- **C4**: on a book with duplicate-free order ids whose level queues are
ordered by arrival (the reachable-state FIFO invariant), any two resting
orders at the same price on the same side with arrival timestamps
`s1 < s2` are matched in that order: whenever an incoming order's trades
include the later order as maker, they include the earlier order as maker
first — matching consumes from the front of the FIFO queue. -/
theorem claim_C4_time_priority (b : OrderBook) (side : Side)
    (price quantity : Int) (id : Nat)
    (hids : (Ladder.ids (b.oppLadder side)).Nodup)
    (hfifo : Ladder.fifoByArrival (b.oppLadder side))
    (p : Int) (q : List Order) (hpq : (p, q) ∈ b.oppLadder side)
    (o1 o2 : Order) (h1 : o1 ∈ q) (h2 : o2 ∈ q)
    (hts : o1.timestamp < o2.timestamp)
    (hm : o2.id ∈ ((b.place_order side price quantity id).1).map Trade.maker_id) :
    [o1.id, o2.id].Sublist
      (((b.place_order side price quantity id).1).map Trade.maker_id) := by
  obtain ⟨m1, m2, m3, hdec⟩ :=
    pairwise_mem_split (R := fun a b : Order => a.timestamp < b.timestamp)
      (fun x y hxy hyx => by omega) (hfifo (p, q) hpq) o1 o2 h1 h2 hts
  subst hdec
  cases side with
  | Buy =>
    simp only [OrderBook.oppLadder] at hids hpq
    rw [place_order_trades_buy] at hm ⊢
    exact matchBuyLoop_fifo price id o1 o2 m1 m2 m3 b.sell_levels quantity p
      hids hpq hm
  | Sell =>
    simp only [OrderBook.oppLadder] at hids hpq
    rw [place_order_trades_sell] at hm ⊢
    exact matchSellLoop_fifo price id o1 o2 m1 m2 m3 b.buy_levels quantity p
      hids hpq hm

theorem claim_C4_time_priority_witness :
    (let b := (((OrderBook.new "V").place_order Side.Sell 100 5 1).2.place_order
        Side.Sell 100 5 2).2
     (Ladder.ids (b.oppLadder Side.Buy)).Nodup ∧
     Ladder.fifoByArrival (b.oppLadder Side.Buy) ∧
     (100, [(⟨1, Side.Sell, 100, 5, 1⟩ : Order), ⟨2, Side.Sell, 100, 5, 2⟩]) ∈
       b.oppLadder Side.Buy ∧
     (⟨2, Side.Sell, 100, 5, 2⟩ : Order).id ∈
       ((b.place_order Side.Buy 100 10 9).1).map Trade.maker_id ∧
     [(⟨1, Side.Sell, 100, 5, 1⟩ : Order).id,
       (⟨2, Side.Sell, 100, 5, 2⟩ : Order).id].Sublist
       (((b.place_order Side.Buy 100 10 9).1).map Trade.maker_id)) :=
  ⟨by decide, by decide, by decide, by decide,
    claim_C4_time_priority _ Side.Buy 100 10 9 (by decide) (by decide)
      100 [⟨1, Side.Sell, 100, 5, 1⟩, ⟨2, Side.Sell, 100, 5, 2⟩] (by decide)
      ⟨1, Side.Sell, 100, 5, 1⟩ ⟨2, Side.Sell, 100, 5, 2⟩ (by decide) (by decide)
      (by decide) (by decide)⟩

/-- **C5**: if a resting order is partially filled by a `place_order`
call (it is the maker of a trade for less than its full quantity), its
remainder is reinserted at the *front* of its price level's queue in the
resulting book, keeping its time priority over every later-arrived order
at that level — later calls enqueue at the back (`insertAsc`/`insertDesc`
append), so it is matched before them. -/
theorem claim_C5_partial_fill_front (b : OrderBook) (side : Side)
    (price quantity : Int) (id : Nat)
    (hids : (Ladder.ids (b.oppLadder side)).Nodup)
    (p : Int) (q : List Order) (hpq : (p, q) ∈ b.oppLadder side)
    (o : Order) (ho : o ∈ q) (t : Trade)
    (ht : t ∈ (b.place_order side price quantity id).1)
    (hmk : t.maker_id = o.id) (hqty : t.quantity < o.quantity) :
    ∃ rest2, Ladder.get? ((b.place_order side price quantity id).2.oppLadder side) p =
      some (({ o with quantity := o.quantity - t.quantity } : Order) :: rest2) := by
  cases side with
  | Buy =>
    simp only [OrderBook.oppLadder] at hids hpq ⊢
    rw [place_order_trades_buy] at ht
    rw [place_order_opp_buy]
    obtain ⟨-, -, rest2, hc⟩ :=
      matchBuyLoop_partial price id o t b.sell_levels quantity p q hids hpq ho ht
        hmk hqty
    exact ⟨rest2, hc⟩
  | Sell =>
    simp only [OrderBook.oppLadder] at hids hpq ⊢
    rw [place_order_trades_sell] at ht
    rw [place_order_opp_sell]
    obtain ⟨-, -, rest2, hc⟩ :=
      matchSellLoop_partial price id o t b.buy_levels quantity p q hids hpq ho ht
        hmk hqty
    exact ⟨rest2, hc⟩

theorem claim_C5_partial_fill_front_witness :
    (let b := (((OrderBook.new "V").place_order Side.Sell 100 5 1).2.place_order
        Side.Sell 100 5 2).2
     (Ladder.ids (b.oppLadder Side.Buy)).Nodup ∧
     (100, [(⟨1, Side.Sell, 100, 5, 1⟩ : Order), ⟨2, Side.Sell, 100, 5, 2⟩]) ∈
       b.oppLadder Side.Buy ∧
     (⟨100, 3, 1, 9⟩ : Trade) ∈ (b.place_order Side.Buy 100 3 9).1 ∧
     ∃ rest2, Ladder.get? ((b.place_order Side.Buy 100 3 9).2.oppLadder Side.Buy)
        100 = some ((⟨1, Side.Sell, 100, 2, 1⟩ : Order) :: rest2)) :=
  ⟨by decide, by decide, by decide,
    claim_C5_partial_fill_front _ Side.Buy 100 3 9 (by decide)
      100 [⟨1, Side.Sell, 100, 5, 1⟩, ⟨2, Side.Sell, 100, 5, 2⟩] (by decide)
      ⟨1, Side.Sell, 100, 5, 1⟩ (by decide) ⟨100, 3, 1, 9⟩ (by decide) (by decide)
      (by decide)⟩

/-- **C9**: during a `place_order` call on a book with duplicate-free
ids, a maker partial fill (a trade for less than the resting order's
quantity) only happens when the incoming order has just been exhausted:
that trade is the last one of the call and the trades account for the
entire submitted quantity, so matching stops there and nothing rests. -/
theorem claim_C9_partial_fill_taker_exhausted (b : OrderBook) (side : Side)
    (price quantity : Int) (id : Nat) (hq : 0 < quantity)
    (hids : (Ladder.ids (b.oppLadder side)).Nodup)
    (p : Int) (q : List Order) (hpq : (p, q) ∈ b.oppLadder side)
    (o : Order) (ho : o ∈ q) (t : Trade)
    (ht : t ∈ (b.place_order side price quantity id).1)
    (hmk : t.maker_id = o.id) (hqty : t.quantity < o.quantity) :
    (b.place_order side price quantity id).1.getLast? = some t ∧
    tradesQty (b.place_order side price quantity id).1 = quantity := by
  cases side with
  | Buy =>
    simp only [OrderBook.oppLadder] at hids hpq
    rw [place_order_trades_buy] at ht ⊢
    obtain ⟨ha, hb, -⟩ :=
      matchBuyLoop_partial price id o t b.sell_levels quantity p q hids hpq ho ht
        hmk hqty
    have hsum := matchBuyLoop_qty_sum price id b.sell_levels quantity
    exact ⟨hb, by omega⟩
  | Sell =>
    simp only [OrderBook.oppLadder] at hids hpq
    rw [place_order_trades_sell] at ht ⊢
    obtain ⟨ha, hb, -⟩ :=
      matchSellLoop_partial price id o t b.buy_levels quantity p q hids hpq ho ht
        hmk hqty
    have hsum := matchSellLoop_qty_sum price id b.buy_levels quantity
    exact ⟨hb, by omega⟩

theorem claim_C9_partial_fill_taker_exhausted_witness :
    (let b := (((OrderBook.new "V").place_order Side.Sell 100 5 1).2.place_order
        Side.Sell 100 5 2).2
     (0 : Int) < 8 ∧
     (Ladder.ids (b.oppLadder Side.Buy)).Nodup ∧
     (⟨100, 3, 2, 9⟩ : Trade) ∈ (b.place_order Side.Buy 100 8 9).1 ∧
     ((b.place_order Side.Buy 100 8 9).1.getLast? = some (⟨100, 3, 2, 9⟩ : Trade) ∧
       tradesQty (b.place_order Side.Buy 100 8 9).1 = 8)) :=
  ⟨by decide, by decide, by decide,
    claim_C9_partial_fill_taker_exhausted _ Side.Buy 100 8 9 (by decide) (by decide)
      100 [⟨1, Side.Sell, 100, 5, 1⟩, ⟨2, Side.Sell, 100, 5, 2⟩] (by decide)
      ⟨2, Side.Sell, 100, 5, 2⟩ (by decide) ⟨100, 3, 2, 9⟩ (by decide) (by decide)
      (by decide)⟩

section Scenarios

/-- Spec §8 scenarios 1–3: a resting bid of 100000 at 100000 is hit by two
sells of 50000; first sell partially fills maker id 1, second one empties
and removes the level. -/
example :
    let b0 := OrderBook.new "V"
    let r1 := b0.place_order Side.Buy 100000 100000 1
    let r2 := r1.2.place_order Side.Sell 100000 50000 2
    let r3 := r2.2.place_order Side.Sell 100000 50000 3
    r1.1 = [] ∧
    r2.1 = [⟨100000, 50000, 1, 2⟩] ∧
    r2.2.buy_levels = [(100000, [⟨1, Side.Buy, 100000, 50000, 1⟩])] ∧
    r3.1 = [⟨100000, 50000, 1, 3⟩] ∧
    r3.2.buy_levels = [] := by decide

/-- Spec §8 scenario 4: time priority at one level; the earlier order
(id 10) is the maker and keeps the front with its remainder. -/
example :
    let b0 := OrderBook.new "V"
    let r1 := b0.place_order Side.Buy 99000 10 10
    let r2 := r1.2.place_order Side.Buy 99000 10 11
    let r3 := r2.2.place_order Side.Sell 99000 5 12
    r3.1 = [⟨99000, 5, 10, 12⟩] ∧
    r3.2.buy_levels =
      [(99000, [⟨10, Side.Buy, 99000, 5, 1⟩, ⟨11, Side.Buy, 99000, 10, 2⟩])] := by
  decide

/-- Spec §8 scenario 5: a buy with no resting asks rests; `best_sell`
stays `none`. -/
example :
    let r := (OrderBook.new "V").place_order Side.Buy 500 10 7
    r.1 = [] ∧ r.2.best_sell = none ∧ r.2.best_buy = some (500, 10) := by decide

end Scenarios
